import Mathlib

/-!
Verification development for the GitHub-to-Topcoder skills recommender CLI.

The embedding below translates the TypeScript sources of the repository
(`src/app.ts` and the unnamed main module) into Lean definitions.  JavaScript
strings are modelled as `List Char` (wrapped into `String` at the interfaces),
JavaScript numbers as `ℚ` (every numeric literal the program manipulates is a
decimal literal, and the operations used -- comparisons, `Math.round`,
`Math.min`, `Math.max`, sums of byte counts -- are exact on those values),
insertion-ordered `Set`/`Map` values as association lists, thrown exceptions as
`Except`/`Option`, and the host randomness sources (`Math.random`,
`crypto.randomInt`) as an injected stream `ℕ → ℕ` whose draws are reduced
modulo the requested bound.  `JSON.parse` is a host-library routine; it is
modelled by an executable JSON reader (`jsonParse`) following the JSON grammar.
-/

-- ── Basic character/string helpers (models of the JS string primitives) ─────

/-- Model of the whitespace class used by JS `trim` and the `\s` regex class
for the ASCII texts this program handles. -/
def isWsChar (c : Char) : Bool :=
  c = ' ' || c = '\t' || c = '\n' || c = '\r' || c = '\x0c' || c = '\x0b'

/-- Drop leading whitespace. -/
def dropWsLead (cs : List Char) : List Char := cs.dropWhile isWsChar

/-- Model of JS `String.prototype.trim`. -/
def trimChars (cs : List Char) : List Char :=
  (dropWsLead ((dropWsLead cs.reverse).reverse))

/-- Does `pat` occur at the very start of `cs`? -/
def leadsWith : List Char → List Char → Bool
  | _, [] => true
  | [], _ :: _ => false
  | c :: cs, p :: ps => c = p && leadsWith cs ps

/-- Does `pat` occur at the very end of `cs`? -/
def endsWith (cs pat : List Char) : Bool :=
  leadsWith cs.reverse pat.reverse

/-- Model of JS `String.prototype.includes` (substring search). -/
def containsSub : List Char → List Char → Bool
  | [], pat => pat.isEmpty
  | c :: cs, pat => leadsWith (c :: cs) pat || containsSub cs pat

/-- Lowercasing, the model of JS `toLowerCase` on the ASCII names involved. -/
def lowerChars (cs : List Char) : List Char := cs.map Char.toLower

/-- Index of the first occurrence of `c`, as JS `indexOf` (none for -1). -/
def idxOfChar (c : Char) : List Char → Option ℕ
  | [] => none
  | d :: ds => if d = c then some 0 else (idxOfChar c ds).map (· + 1)

/-- Index of the last occurrence of `c`, as JS `lastIndexOf` (none for -1). -/
def lastIdxOfChar (c : Char) (cs : List Char) : Option ℕ :=
  (idxOfChar c cs.reverse).map (fun k => cs.length - 1 - k)

/-- JS `substring(0, n)`. -/
def takeChars (n : ℕ) (cs : List Char) : List Char := cs.take n

/-- JS `substring(i, j)` for `i ≤ j`. -/
def sliceChars (i j : ℕ) (cs : List Char) : List Char := (cs.drop i).take (j - i)

/-- Worker for `splitOnChar`. -/
def splitOnCharGo (sep : Char) : List Char → List Char → List (List Char)
  | [], acc => [acc.reverse]
  | c :: cs, acc =>
      if c = sep then acc.reverse :: splitOnCharGo sep cs []
      else splitOnCharGo sep cs (c :: acc)

/-- Split on a separator character, as JS `split`. -/
def splitOnChar (sep : Char) (cs : List Char) : List (List Char) :=
  splitOnCharGo sep cs []

/-- Insertion-ordered set insertion, the model of JS `Set.prototype.add`. -/
def setAdd (l : List String) (x : String) : List String :=
  if x ∈ l then l else l ++ [x]

/-- Fold a list of strings into an insertion-ordered duplicate-free list. -/
def setOfList (l : List String) : List String := l.foldl setAdd []

/-- Association-list update that keeps the first-insertion position of a key,
the model of JS `Map.prototype.set` with `get`-accumulate. -/
def mapAddAt (m : List (String × ℕ)) (k : String) (v : ℕ) : List (String × ℕ) :=
  match m with
  | [] => [(k, v)]
  | (k0, v0) :: rest =>
      if k0 = k then (k0, v0 + v) :: rest else (k0, v0) :: mapAddAt rest k v

-- ── The JSON data model (model of host `JSON.parse` values) ─────────────────

/-- JSON values as produced by `JSON.parse`. -/
inductive Json where
  | null : Json
  | bool (b : Bool) : Json
  | num (q : ℚ) : Json
  | str (s : String) : Json
  | arr (items : List Json) : Json
  | obj (fields : List (String × Json)) : Json

/-- Reading a field of a parsed JSON value, as JS property access: objects
yield the last binding of the key (later duplicate keys win in `JSON.parse`),
anything else yields `undefined` (here `none`). -/
def getField (j : Json) (k : String) : Option Json :=
  match j with
  | Json.obj fields => (fields.reverse.find? (fun f => f.1 = k)).map (·.2)
  | _ => none

/-- `Object.keys` of a parsed JSON object: keys in first-occurrence order. -/
def objKeys : Option Json → List String
  | some (Json.obj fields) => setOfList (fields.map (·.1))
  | _ => []

-- ── An executable JSON reader (model of the host `JSON.parse`) ──────────────

/-- Value of a hexadecimal digit. -/
def hexVal (c : Char) : Option ℕ :=
  if '0' ≤ c ∧ c ≤ '9' then some (c.toNat - '0'.toNat)
  else if 'a' ≤ c ∧ c ≤ 'f' then some (c.toNat - 'a'.toNat + 10)
  else if 'A' ≤ c ∧ c ≤ 'F' then some (c.toNat - 'A'.toNat + 10)
  else none

/-- Single-character JSON string escapes. -/
def escChar (c : Char) : Option Char :=
  if c = '"' then some '"'
  else if c = '\\' then some '\\'
  else if c = '/' then some '/'
  else if c = 'b' then some '\x08'
  else if c = 'f' then some '\x0c'
  else if c = 'n' then some '\n'
  else if c = 'r' then some '\r'
  else if c = 't' then some '\t'
  else none

/-- JSON string body reader; the opening quote is already consumed.  Returns
the decoded characters and the remainder after the closing quote. -/
def pStrGo : List Char → List Char → Option (List Char × List Char)
  | [], _ => none
  | '"' :: rest, acc => some (acc.reverse, rest)
  | '\\' :: 'u' :: h1 :: h2 :: h3 :: h4 :: rest, acc =>
      (match hexVal h1, hexVal h2, hexVal h3, hexVal h4 with
       | some a, some b, some c, some d =>
           pStrGo rest (Char.ofNat (((a * 16 + b) * 16 + c) * 16 + d) :: acc)
       | _, _, _, _ => none)
  | '\\' :: e :: rest, acc =>
      (match escChar e with
       | some c => pStrGo rest (c :: acc)
       | none => none)
  | c :: rest, acc => if c.toNat < 32 then none else pStrGo rest (c :: acc)

/-- Maximal run of decimal digits. -/
def takeDigits (cs : List Char) : List Char × List Char :=
  (cs.takeWhile Char.isDigit, cs.dropWhile Char.isDigit)

/-- Numeric value of a digit run. -/
def digitsToNat (ds : List Char) : ℕ :=
  ds.foldl (fun n c => 10 * n + (c.toNat - '0'.toNat)) 0

/-- Integer part of a JSON number: `0`, or a nonzero digit followed by more
digits (`JSON.parse` rejects leading zeros). -/
def pIntPart : List Char → Option (ℕ × List Char)
  | '0' :: rest =>
      (match rest with
       | d :: _ => if d.isDigit then none else some (0, rest)
       | [] => some (0, []))
  | c :: rest =>
      if c.isDigit then
        let (ds, r) := takeDigits rest
        some (digitsToNat (c :: ds), r)
      else none
  | [] => none

/-- Fraction part: a dot followed by at least one digit; yields the fraction
digits value together with their count. -/
def pFracPart : List Char → Option (ℕ × ℕ × List Char)
  | '.' :: rest =>
      (match takeDigits rest with
       | ([], _) => none
       | (ds, r) => some (digitsToNat ds, ds.length, r))
  | cs => some (0, 0, cs)

/-- Tail of an exponent: an optional sign and at least one digit. -/
def pExpTail : List Char → Option (Bool × ℕ × List Char)
  | '-' :: r =>
      (match takeDigits r with
       | ([], _) => none
       | (ds, r2) => some (true, digitsToNat ds, r2))
  | '+' :: r =>
      (match takeDigits r with
       | ([], _) => none
       | (ds, r2) => some (false, digitsToNat ds, r2))
  | r =>
      (match takeDigits r with
       | ([], _) => none
       | (ds, r2) => some (false, digitsToNat ds, r2))

/-- Exponent part: `e`/`E`, an optional sign, and at least one digit. -/
def pExpPart (cs : List Char) : Option (Bool × ℕ × List Char) :=
  match cs with
  | 'e' :: rest => pExpTail rest
  | 'E' :: rest => pExpTail rest
  | _ => some (false, 0, cs)

/-- A JSON number, as an exact rational. -/
def pNumber (cs : List Char) : Option (ℚ × List Char) :=
  let (neg, cs1) := match cs with
    | '-' :: rest => (true, rest)
    | _ => (false, cs)
  match pIntPart cs1 with
  | none => none
  | some (ip, cs2) =>
    match pFracPart cs2 with
    | none => none
    | some (fp, fl, cs3) =>
      match pExpPart cs3 with
      | none => none
      | some (eneg, ev, cs4) =>
        let base : ℚ := ((ip * 10 ^ fl + fp : ℕ) : ℚ) / ((10 : ℚ) ^ fl)
        let scaled : ℚ := if eneg then base / (10 : ℚ) ^ ev else base * (10 : ℚ) ^ ev
        some ((if neg then -scaled else scaled), cs4)

/-- Characters of the literal `true`. -/
def trueLit : List Char := ['t', 'r', 'u', 'e']

/-- Characters of the literal `false`. -/
def falseLit : List Char := ['f', 'a', 'l', 's', 'e']

/-- Characters of the literal `null`. -/
def nullLit : List Char := ['n', 'u', 'l', 'l']

mutual

/-- JSON value reader with fuel; whitespace before the value is skipped. -/
def pVal : ℕ → List Char → Option (Json × List Char)
  | 0, _ => none
  | Nat.succ fuel, cs0 =>
    let cs := dropWsLead cs0
    if leadsWith cs trueLit then some (Json.bool true, cs.drop 4)
    else if leadsWith cs falseLit then some (Json.bool false, cs.drop 5)
    else if leadsWith cs nullLit then some (Json.null, cs.drop 4)
    else
      match cs with
      | '"' :: rest =>
          (match pStrGo rest [] with
           | some (s, r) => some (Json.str (String.mk s), r)
           | none => none)
      | '[' :: rest =>
          (match dropWsLead rest with
           | ']' :: r2 => some (Json.arr [], r2)
           | _ =>
             match pElems fuel rest with
             | some (xs, r) => some (Json.arr xs, r)
             | none => none)
      | '\x7b' :: rest =>
          (match dropWsLead rest with
           | '\x7d' :: r2 => some (Json.obj [], r2)
           | _ =>
             match pMembers fuel rest with
             | some (fs, r) => some (Json.obj fs, r)
             | none => none)
      | _ =>
          (match pNumber cs with
           | some (q, r) => some (Json.num q, r)
           | none => none)

/-- Array elements reader: one value, then either a comma and more elements or
the closing bracket. -/
def pElems : ℕ → List Char → Option (List Json × List Char)
  | 0, _ => none
  | Nat.succ fuel, cs =>
    match pVal fuel cs with
    | none => none
    | some (x, r) =>
      match dropWsLead r with
      | ',' :: r2 =>
          (match pElems fuel r2 with
           | some (xs, r3) => some (x :: xs, r3)
           | none => none)
      | ']' :: r2 => some ([x], r2)
      | _ => none

/-- Object members reader: a quoted key, a colon, a value, then either a comma
and more members or the closing brace. -/
def pMembers : ℕ → List Char → Option (List (String × Json) × List Char)
  | 0, _ => none
  | Nat.succ fuel, cs =>
    match dropWsLead cs with
    | '"' :: rest =>
      (match pStrGo rest [] with
       | none => none
       | some (k, r) =>
         match dropWsLead r with
         | ':' :: r2 =>
           (match pVal fuel r2 with
            | none => none
            | some (v, r3) =>
              match dropWsLead r3 with
              | ',' :: r4 =>
                  (match pMembers fuel r4 with
                   | some (fs, r5) => some ((String.mk k, v) :: fs, r5)
                   | none => none)
              | '\x7d' :: r4 => some ([(String.mk k, v)], r4)
              | _ => none)
         | _ => none)
    | _ => none

end

/-- Model of `JSON.parse`: parse one value and insist that only whitespace
follows; `none` models the thrown `SyntaxError`. -/
def jsonParse (s : String) : Option Json :=
  match pVal (2 * s.data.length + 2) s.data with
  | some (j, rest) => if (dropWsLead rest).isEmpty then some j else none
  | none => none

-- ── Skills and recommendations (data model of the program) ──────────────────

/-- A Topcoder catalog entry, from `interface Skill`. -/
structure Skill where
  id : String
  name : String
deriving DecidableEq

/-- A produced recommendation, from `interface Recommendation`.  The score is
kept as a JS number (`ℚ`); the parser stores a clamped rounded integer. -/
structure Recommendation where
  id : String
  name : String
  score : ℚ
  info : String
deriving DecidableEq

-- ── Response recovery pipeline (`parseAndMapRecommendations`, steps 1-5) ────

/-- The three backquote characters of a markdown code fence. -/
def fenceTicks : List Char := ['\x60', '\x60', '\x60']

/-- Strip trailing whitespace. -/
def trimEndChars (cs : List Char) : List Char := (dropWsLead cs.reverse).reverse

/-- Step 1a: strip a leading fence, the regex `^(three ticks)json?\s*` with
the `i` flag.  The regex requires the letters `jso` and an optional `n` after
the ticks, then swallows following whitespace. -/
def stripFenceOpen (cs : List Char) : List Char :=
  if leadsWith cs fenceTicks then
    let r := cs.drop 3
    if leadsWith (lowerChars r) ['j', 's', 'o'] then
      let r2 := r.drop 3
      match r2 with
      | c :: r3 => if c.toLower = 'n' then dropWsLead r3 else dropWsLead r2
      | [] => []
    else cs
  else cs

/-- Step 1b: strip a trailing fence, the regex `\s*(three ticks)$`. -/
def stripFenceClose (cs : List Char) : List Char :=
  if endsWith cs fenceTicks then trimEndChars (cs.take (cs.length - 3)) else cs

/-- Step 2: keep only the span between the first `[` and the last `]` when
both exist in that order. -/
def bracketSpan (cs : List Char) : List Char :=
  match idxOfChar '[' cs, lastIdxOfChar ']' cs with
  | some i, some j => if i < j then sliceChars i (j + 1) cs else cs
  | _, _ => cs

/-- After a comma, try to consume `\s*]`; used by step 3. -/
def chompWsBracket : List Char → Option (List Char)
  | [] => none
  | c :: rest =>
      if c = ']' then some rest
      else if isWsChar c then chompWsBracket rest
      else none

/-- Step 3 worker, with fuel (each step consumes at least one character, so
fuel equal to the length of the text is always enough). -/
def stepCommaWsGo : ℕ → List Char → List Char
  | 0, cs => cs
  | Nat.succ _, [] => []
  | Nat.succ fuel, c :: rest =>
      if c = ',' then
        match chompWsBracket rest with
        | some rest2 => ']' :: stepCommaWsGo fuel rest2
        | none => ',' :: stepCommaWsGo fuel rest
      else c :: stepCommaWsGo fuel rest

/-- Step 3: the global replace of the regex `,\s*]` by `]`: non-overlapping
matches are found left to right and each is replaced by a single bracket. -/
def stepCommaWs (cs : List Char) : List Char := stepCommaWsGo cs.length cs

/-- Step 4: when the text does not end with `]`, cut after the last complete
`\x7d` and close the array, or append a bracket when no brace exists. -/
def forceClose (cs : List Char) : List Char :=
  if endsWith cs [']'] then cs
  else
    match lastIdxOfChar '\x7d' cs with
    | some i => takeChars (i + 1) cs ++ [']']
    | none => cs ++ [']']

/-- Step 5: drop anything after the final `]`. -/
def trimAfterFinal (cs : List Char) : List Char :=
  match lastIdxOfChar ']' cs with
  | some i => takeChars (i + 1) cs
  | none => cs

/-- The full textual repair pipeline of `parseAndMapRecommendations`
(unnamed main module, steps 1-5), on characters. -/
def cleanChars (cs0 : List Char) : List Char :=
  let cs1 := trimChars cs0
  let cs2 := stripFenceClose (stripFenceOpen cs1)
  let cs3 := bracketSpan cs2
  let cs4 := stepCommaWs cs3
  let cs5 := forceClose cs4
  trimAfterFinal cs5

/-- The repair pipeline on strings. -/
def cleanResponse (s : String) : String := String.mk (cleanChars s.data)

-- ── Parse & map recommendations (unnamed main module, lines 711-805) ────────

/-- Model of JS `Math.round`: round half toward positive infinity. -/
def jsRound (q : ℚ) : ℤ := ⌊q + 1 / 2⌋

/-- Is the field a string, as the `typeof item.f === "string"` test. -/
def isStrField (j : Json) (k : String) : Bool :=
  match getField j k with
  | some (Json.str _) => true
  | _ => false

/-- Is the field a number, as the `typeof item.score === "number"` test. -/
def isNumField (j : Json) (k : String) : Bool :=
  match getField j k with
  | some (Json.num _) => true
  | _ => false

/-- The validation filter of `parseAndMapRecommendations`: the item is truthy
and carries a string `name` or `skill`, a numeric `score` and a string
`reason`.  (A falsy or primitive item has none of those fields.) -/
def validEntry (j : Json) : Bool :=
  (isStrField j "name" || isStrField j "skill") &&
    isNumField j "score" && isStrField j "reason"

/-- `item.name ?? item.skill`: the `name` field unless it is absent or null. -/
def nameOrSkill (j : Json) : Option Json :=
  match getField j "name" with
  | none => getField j "skill"
  | some Json.null => getField j "skill"
  | some v => some v

/-- The numeric `score` field (only read on validated entries). -/
def scoreField (j : Json) : ℚ :=
  match getField j "score" with
  | some (Json.num q) => q
  | _ => 0

/-- `item.reason?.trim() || "No reason provided"`. -/
def infoField (j : Json) : String :=
  match getField j "reason" with
  | some (Json.str s) =>
      let t := String.mk (trimChars s.data)
      if t = "" then "No reason provided" else t
  | _ => "No reason provided"

/-- Case-insensitive trimmed name key used for catalog matching. -/
def nameKey (s : String) : List Char := lowerChars (trimChars s.data)

/-- The map step of `parseAndMapRecommendations` on one validated entry.
`Except.error` models the `TypeError` thrown when `item.name` holds a non-null
non-string value (then `.trim()` does not exist); `Except.ok none` models the
`null` produced for an entry whose name resolves to no catalog skill. -/
def mapEntry (allSkills : List Skill) (j : Json) : Except Unit (Option Recommendation) :=
  match nameOrSkill j with
  | none => Except.ok none
  | some (Json.str raw) =>
      match allSkills.find? (fun sk => nameKey sk.name = lowerChars (trimChars raw.data)) with
      | some sk =>
          Except.ok (some
            { id := sk.id
              name := sk.name
              score := ((max 0 (min 100 (jsRound (scoreField j))) : ℤ) : ℚ)
              info := infoField j })
      | none => Except.ok none
  | some _ => Except.error ()

/-- The `.map` over validated entries; the first thrown `TypeError` aborts the
whole `try` block, modelled by the propagating `Except.error`. -/
def mapEntriesEx (allSkills : List Skill) : List Json → Except Unit (List (Option Recommendation))
  | [] => Except.ok []
  | j :: js =>
      match mapEntry allSkills j with
      | Except.error e => Except.error e
      | Except.ok o =>
          match mapEntriesEx allSkills js with
          | Except.error e => Except.error e
          | Except.ok os => Except.ok (o :: os)

/-- `parseAndMapRecommendations` (unnamed main module): repair the raw model
response, `JSON.parse` it, reject a non-array result, validate entries, map
them against the catalog, and keep non-null results with score at least 40.
Every caught exception path returns the empty list. -/
def parseAndMapRecommendations (raw : String) (allSkills : List Skill) : List Recommendation :=
  match jsonParse (cleanResponse raw) with
  | some (Json.arr parsed) =>
      (match mapEntriesEx allSkills (parsed.filter validEntry) with
       | Except.ok opts =>
           (opts.filterMap id).filter (fun r => decide ((40 : ℚ) ≤ r.score))
       | Except.error _ => [])
  | _ => []

-- ── Fresh evidence sampler (`getFreshEvidenceSample`, lines 562-612) ────────

/-- The literal `/pull/`. -/
def pullPat : List Char := ("/pull/").data

/-- The literal `/commit/`. -/
def commitPat : List Char := ("/commit/").data

/-- The literal `github.com/`. -/
def ghLit : List Char := ("github.com/").data

/-- The literal `/commit`. -/
def slashCommit : List Char := ("/commit").data

/-- The literal `/pull`. -/
def slashPull : List Char := ("/pull").data

/-- Attempt the regex `github\.com\/([^/]+\/[^/]+)(?:\/commit|\/pull)` at the
head of the text; yields the captured `owner/name` on success. -/
def matchRepoAt (cs : List Char) : Option (List Char) :=
  if leadsWith cs ghLit then
    let r := cs.drop ghLit.length
    let s1 := r.takeWhile (fun c => c ≠ '/')
    if s1.isEmpty then none
    else
      match r.drop s1.length with
      | '/' :: r2 =>
          let s2 := r2.takeWhile (fun c => c ≠ '/')
          if s2.isEmpty then none
          else
            let r3 := r2.drop s2.length
            if leadsWith r3 slashCommit || leadsWith r3 slashPull then
              some (s1 ++ '/' :: s2)
            else none
      | _ => none
  else none

/-- Unanchored regex search: try every start position left to right. -/
def repoSearch : List Char → Option (List Char)
  | [] => none
  | c :: rest =>
      match matchRepoAt (c :: rest) with
      | some r => some r
      | none => repoSearch rest

/-- `link.match(...)` and the `"unknown"` fallback of the sampler. -/
def repoOfLink (l : String) : String :=
  match repoSearch l.data with
  | some r => String.mk r
  | none => "unknown"

/-- Append a link to the group of its repository, creating the group at the
end on first sight (JS `Map` insertion order). -/
def groupAdd (m : List (String × List String)) (k : String) (link : String) :
    List (String × List String) :=
  match m with
  | [] => [(k, [link])]
  | (k0, ls) :: rest =>
      if k0 = k then (k0, ls ++ [link]) :: rest
      else (k0, ls) :: groupAdd rest k link

/-- The `byRepo` map of the sampler. -/
def groupByRepo (links : List String) : List (String × List String) :=
  links.foldl (fun m l => groupAdd m (repoOfLink l) l) []

/-- Priority pass 1: one pull-request link per repository group, while room
remains. -/
def pass1 (maxLinks : ℕ) : List (List String) → List String → List String
  | [], selected => selected
  | g :: gs, selected =>
      match g.find? (fun l => containsSub l.data pullPat) with
      | some l =>
          if selected.length < maxLinks then pass1 maxLinks gs (selected ++ [l])
          else pass1 maxLinks gs selected
      | none => pass1 maxLinks gs selected

/-- Priority pass 2: one not-yet-selected commit link per repository group,
while room remains. -/
def pass2 (maxLinks : ℕ) : List (List String) → List String → List String
  | [], selected => selected
  | g :: gs, selected =>
      match g.find? (fun l => containsSub l.data commitPat && !(decide (l ∈ selected))) with
      | some l =>
          if selected.length < maxLinks then pass2 maxLinks gs (selected ++ [l])
          else pass2 maxLinks gs selected
      | none => pass2 maxLinks gs selected

/-- The random fill loop: `Math.floor(Math.random() * remaining.length)` is
modelled by a draw of the injected stream reduced modulo the length, and
`splice(idx, 1)` removes the drawn element.  Fuel equal to the length of
`remaining` is always enough, since each round removes one element. -/
def fillGo (rng : ℕ → ℕ) : ℕ → ℕ → ℕ → List String → List String → List String
  | 0, _, _, selected, _ => selected
  | Nat.succ fuel, k, maxLinks, selected, remaining =>
      if selected.length < maxLinks ∧ remaining ≠ [] then
        let idx := rng k % remaining.length
        fillGo rng fuel (k + 1) maxLinks (selected ++ [remaining.getD idx ""])
          (remaining.eraseIdx idx)
      else selected

/-- The destructuring swap of two positions. -/
def swapIdx (l : List String) (i j : ℕ) : List String :=
  (l.set i (l.getD j "")).set j (l.getD i "")

/-- The Fisher-Yates loop `for (i = n-1; i > 0; i--)` with
`j = crypto.randomInt(i + 1)` modelled as a stream draw modulo `i + 1`. -/
def shuffleGo (rng : ℕ → ℕ) : ℕ → List String → ℕ → List String
  | _, l, 0 => l
  | k, l, Nat.succ i => shuffleGo rng (k + 1) (swapIdx l (i + 1) (rng k % (i + 2))) i

/-- The full shuffle over a list. -/
def shuffleRun (rng : ℕ → ℕ) (l : List String) : List String :=
  shuffleGo rng 0 l (l.length - 1)

/-- The selection of `getFreshEvidenceSample` as a list: the whole pool when
it fits, otherwise priority passes, random fill, shuffle and final slice.
`rngFill` models `Math.random` draws, `rngShuf` the `crypto.randomInt` draws. -/
def freshSample (allLinks : List String) (maxLinks : ℕ) (rngFill rngShuf : ℕ → ℕ) :
    List String :=
  if allLinks.length ≤ maxLinks then allLinks
  else
    let groups := (groupByRepo allLinks).map (fun g => g.2)
    let sel2 := pass2 maxLinks groups (pass1 maxLinks groups [])
    let remaining := allLinks.filter (fun l => !(decide (l ∈ sel2)))
    let filled := fillGo rngFill remaining.length 0 maxLinks sel2 remaining
    (shuffleRun rngShuf filled).take maxLinks

/-- `getFreshEvidenceSample` (unnamed main module): the newline join of the
selection. -/
def getFreshEvidenceSample (allLinks : List String) (maxLinks : ℕ)
    (rngFill rngShuf : ℕ → ℕ) : String :=
  String.intercalate "\n" (freshSample allLinks maxLinks rngFill rngShuf)

-- ── Capped paged search loops (`src/app.ts`, lines 216-307) ─────────────────

/-- Outcome of one page request against a search endpoint: a page of items,
the recognized 422 `Only the first 1000 ...` error, or any other error. -/
inductive SearchPage (α : Type) where
  | ok (items : List α)
  | windowErr
  | otherErr

/-- Why the paged loop stopped (trace instrumentation). -/
inductive StopCause where
  | capped
  | window
  | emptyPage
  | thrown
  | fuelOut
deriving DecidableEq

/-- Trace of one capped search loop: the page numbers actually requested, the
repository set accumulated so far, the partial-results flag of the loop, and
whether an unrecognized error propagated. -/
structure SearchRun where
  requested : List ℕ
  repos : List String
  limited : Bool
  threw : Bool
  cause : StopCause
deriving DecidableEq

/-- The capped search loop shared by the commit and PR searches: check the
`page * 100 > 1000` cap before any request, stop with the flag on the cap or
on the recognized window error, rethrow anything else, stop silently on an
empty page, else add the extracted repositories and continue.  Eleven units of
fuel always reach the cap. -/
def searchLoopGo {α : Type} (fetch : ℕ → SearchPage α) (extract : α → String) :
    ℕ → ℕ → List String → SearchRun
  | 0, _, repos => ⟨[], repos, false, false, StopCause.fuelOut⟩
  | Nat.succ fuel, page, repos =>
      if page * 100 > 1000 then ⟨[], repos, true, false, StopCause.capped⟩
      else
        match fetch page with
        | SearchPage.windowErr => ⟨[page], repos, true, false, StopCause.window⟩
        | SearchPage.otherErr => ⟨[page], repos, false, true, StopCause.thrown⟩
        | SearchPage.ok items =>
            if items.length = 0 then ⟨[page], repos, false, false, StopCause.emptyPage⟩
            else
              let repos2 := items.foldl (fun rs it => setAdd rs (extract it)) repos
              let rest := searchLoopGo fetch extract fuel (page + 1) repos2
              ⟨page :: rest.requested, rest.repos, rest.limited, rest.threw, rest.cause⟩

/-- A commit search item carries `item.repository.full_name`. -/
structure CommitItem where
  repoFullName : String

/-- A PR search item carries `item.repository_url`. -/
structure PrItem where
  repositoryUrl : String

/-- JS `String.prototype.replace` with a plain-string pattern: remove the
first occurrence of `pat`. -/
def dropFirstOcc : List Char → List Char → List Char
  | [], _ => []
  | c :: rest, pat =>
      if leadsWith (c :: rest) pat then (c :: rest).drop pat.length
      else c :: dropFirstOcc rest pat

/-- The literal `https://api.github.com/repos/`. -/
def apiReposLit : List Char := ("https://api.github.com/repos/").data

/-- The commit search loop of `src/app.ts` (pages start at 1). -/
def commitSearchRun (fetch : ℕ → SearchPage CommitItem) (repos0 : List String) : SearchRun :=
  searchLoopGo fetch (fun it => it.repoFullName) 12 1 repos0

/-- The PR search loop of `src/app.ts`: the repository is the issue
`repository_url` with the API prefix removed. -/
def prSearchRun (fetch : ℕ → SearchPage PrItem) (repos0 : List String) : SearchRun :=
  searchLoopGo fetch
    (fun it => String.mk (dropFirstOcc it.repositoryUrl.data apiReposLit)) 12 1 repos0

-- ── Per-repository analysis (`analyzeRepos`, unnamed main module 398-513) ───

/-- The per-repository record of `interface RepoAnalysis`; sets are
insertion-ordered duplicate-free lists. -/
structure RepoAnalysis where
  languages : List (String × ℕ)
  dependencies : List String
  fileTypes : List String
  commitCount : ℕ
  prCount : ℕ
  evidence : List String
deriving DecidableEq

/-- The freshly initialized analysis record. -/
def emptyAnalysis : RepoAnalysis := ⟨[], [], [], 0, 0, []⟩

/-- One commit of a commits page: its `html_url` and the result of the
per-commit detail lookup (the changed file names, or a failed fetch whose
inner catch skips this commit). -/
structure CommitInfo where
  htmlUrl : String
  files : Except Unit (List String)

/-- How the commits paging ended after its successful pages: a normal empty
page, the recognized 409 empty-repository error, or any other error.  All
three are caught; they differ only in the logged message. -/
inductive CommitsEnd where
  | emptyPage
  | emptyRepo409
  | errOther
deriving DecidableEq

/-- The observable behavior of the commits endpoint for one repository. -/
structure CommitsFetch where
  pages : List (List CommitInfo)
  outcome : CommitsEnd

/-- How the PR paging ended after its successful pages. -/
inductive PagesEnd where
  | emptyPage
  | errOther
deriving DecidableEq

/-- The observable behavior of the pulls endpoint for one repository; each
page is a list of PR `html_url` values. -/
structure PrsFetch where
  pages : List (List String)
  outcome : PagesEnd
deriving DecidableEq

/-- The three well-known manifest lookups of one repository, already decoded
from base64; `Except.error` is a failed or missing fetch. -/
structure ManifestsFetch where
  packageJson : Except Unit String
  requirementsTxt : Except Unit String
  pomXml : Except Unit String

/-- Everything the analysis loop can observe about one repository. -/
structure RepoFetchData where
  languages : Except Unit (List (String × ℕ))
  commits : CommitsFetch
  prs : PrsFetch
  manifests : ManifestsFetch

/-- `path.extname(filename).slice(1)`: the extension after the last dot of
the basename, without the dot; empty for dotless or dotfile names. -/
def extnameSlice1 (name : List Char) : List Char :=
  let base := match lastIdxOfChar '/' name with
    | some i => name.drop (i + 1)
    | none => name
  match lastIdxOfChar '.' base with
  | some i => if i = 0 then [] else (base.drop i).drop 1
  | none => []

/-- Process one commit of a page: a successful detail lookup contributes the
file extensions of its changed files and the commit URL; a failed one is
skipped by the inner catch. -/
def commitOne (acc : RepoAnalysis) (c : CommitInfo) : RepoAnalysis :=
  match c.files with
  | Except.error _ => acc
  | Except.ok fs =>
      { acc with
        fileTypes := fs.foldl
          (fun ts f =>
            let ext := extnameSlice1 f.data
            if ext.isEmpty then ts else setAdd ts (String.mk ext)) acc.fileTypes
        evidence := acc.evidence ++ [c.htmlUrl] }

/-- Process one page of commits: count them first, then walk the commits. -/
def commitFold (a : RepoAnalysis) (p : List CommitInfo) : RepoAnalysis :=
  p.foldl commitOne { a with commitCount := a.commitCount + p.length }

/-- The commits paging loop: stop at the first empty page, keep everything
accumulated when the ending error arrives (the catch only logs). -/
def commitPagesGo : RepoAnalysis → List (List CommitInfo) → RepoAnalysis
  | a, [] => a
  | a, p :: ps => if p.length = 0 then a else commitPagesGo (commitFold a p) ps

/-- The commits sub-analysis. -/
def commitStep (a : RepoAnalysis) (cf : CommitsFetch) : RepoAnalysis :=
  commitPagesGo a cf.pages

/-- The PR paging loop. -/
def prPagesGo : RepoAnalysis → List (List String) → RepoAnalysis
  | a, [] => a
  | a, p :: ps =>
      if p.length = 0 then a
      else prPagesGo { a with prCount := a.prCount + p.length, evidence := a.evidence ++ p } ps

/-- The PR sub-analysis. -/
def prStep (a : RepoAnalysis) (pf : PrsFetch) : RepoAnalysis :=
  prPagesGo a pf.pages

/-- The languages sub-analysis: a failed call leaves the record untouched. -/
def langStep (a : RepoAnalysis) (e : Except Unit (List (String × ℕ))) : RepoAnalysis :=
  match e with
  | Except.ok l => { a with languages := l }
  | Except.error _ => a

/-- Keys of `json.dependencies` and `json.devDependencies` of a decoded
`package.json`; `none` models the exceptions thrown inside the try block
(`JSON.parse` failure, or property access on a parsed `null`). -/
def packageDeps (content : String) : Option (List String) :=
  match jsonParse content with
  | none => none
  | some Json.null => none
  | some j => some (objKeys (getField j "dependencies") ++ objKeys (getField j "devDependencies"))

/-- `requirements.txt` extraction: split lines, trim, drop blanks and `#`
comments. -/
def requirementsDeps (content : String) : List String :=
  ((splitOnChar '\n' content.data).map trimChars).filterMap
    (fun l => if l.isEmpty || leadsWith l ['#'] then none else some (String.mk l))

/-- The literal `<artifactId>`. -/
def openTagLit : List Char := ("<artifactId>").data

/-- The literal `</artifactId>`. -/
def closeTagLit : List Char := ("</artifactId>").data

/-- Find the matching close tag reachable without a line break (the regex dot
matches neither `\n` nor `\r`); yields the enclosed text and the remainder. -/
def findCloseTag : List Char → Option (List Char × List Char)
  | [] => none
  | c :: rest =>
      if leadsWith (c :: rest) closeTagLit then some ([], (c :: rest).drop closeTagLit.length)
      else if c = '\n' || c = '\r' then none
      else
        match findCloseTag rest with
        | some (inner, r) => some (c :: inner, r)
        | none => none

/-- Global removal of both artifact tags inside one match, the
`m.replace(/<artifactId>|<\/artifactId>/g, "")` step; fuel bounded by the
text length. -/
def stripTagsGo : ℕ → List Char → List Char
  | 0, cs => cs
  | Nat.succ fuel, cs =>
      match cs with
      | [] => []
      | c :: rest =>
          if leadsWith (c :: rest) openTagLit then stripTagsGo fuel ((c :: rest).drop openTagLit.length)
          else if leadsWith (c :: rest) closeTagLit then stripTagsGo fuel ((c :: rest).drop closeTagLit.length)
          else c :: stripTagsGo fuel rest

/-- The scan for all non-overlapping `<artifactId>(lazy)<\/artifactId>`
matches; fuel bounded by the text length. -/
def pomScanGo : ℕ → List Char → List String
  | 0, _ => []
  | Nat.succ fuel, cs =>
      match cs with
      | [] => []
      | c :: rest =>
          if leadsWith (c :: rest) openTagLit then
            match findCloseTag ((c :: rest).drop openTagLit.length) with
            | some (inner, r) =>
                String.mk (stripTagsGo inner.length inner) :: pomScanGo fuel r
            | none => pomScanGo fuel rest
          else pomScanGo fuel rest

/-- `pom.xml` extraction. -/
def pomDeps (content : String) : List String :=
  pomScanGo content.data.length content.data

/-- Add a list of extracted dependencies to the analysis set. -/
def manifestAdd (a : RepoAnalysis) (deps : List String) : RepoAnalysis :=
  { a with dependencies := deps.foldl setAdd a.dependencies }

/-- The `package.json` iteration of the manifest loop: a missing file or a
parse exception skips it. -/
def depStep1 (a : RepoAnalysis) (e : Except Unit String) : RepoAnalysis :=
  match e with
  | Except.error _ => a
  | Except.ok c =>
      match packageDeps c with
      | none => a
      | some ds => manifestAdd a ds

/-- The `requirements.txt` iteration of the manifest loop. -/
def depStep2 (a : RepoAnalysis) (e : Except Unit String) : RepoAnalysis :=
  match e with
  | Except.error _ => a
  | Except.ok c => manifestAdd a (requirementsDeps c)

/-- The `pom.xml` iteration of the manifest loop. -/
def depStep3 (a : RepoAnalysis) (e : Except Unit String) : RepoAnalysis :=
  match e with
  | Except.error _ => a
  | Except.ok c => manifestAdd a (pomDeps c)

/-- The dependency-manifests sub-analysis: each of the three files in order,
each failure (missing file or parse exception) skipping only that file. -/
def depStep (a : RepoAnalysis) (m : ManifestsFetch) : RepoAnalysis :=
  depStep3 (depStep2 (depStep1 a m.packageJson) m.requirementsTxt) m.pomXml

/-- The body of the per-repository loop of `analyzeRepos`: the four
sub-analyses in program order, each wrapped in its own catch. -/
def analyzeSingleRepo (d : RepoFetchData) : RepoAnalysis :=
  depStep (prStep (commitStep (langStep emptyAnalysis d.languages) d.commits) d.prs) d.manifests

/-- `analyzeRepos`: the loop over the repository list, recording each
analysis and accumulating the totals. -/
def analyzeRepos (env : String → RepoFetchData) (repos : List String) :
    List (String × RepoAnalysis) × ℕ × ℕ :=
  repos.foldl
    (fun acc r =>
      let a := analyzeSingleRepo (env r)
      (acc.1 ++ [(r, a)], acc.2.1 + a.commitCount, acc.2.2 + a.prCount))
    ([], 0, 0)

-- ── Language aggregation (`aggregateAnalysis`, unnamed main module 516-535) ─

/-- Fold all per-repository language histograms into one, in value order. -/
def allLanguagesOf (analyses : List RepoAnalysis) : List (String × ℕ) :=
  analyses.foldl (fun m a => a.languages.foldl (fun m2 p => mapAddAt m2 p.1 p.2) m) []

/-- The grand total byte count. -/
def totalBytesOf (m : List (String × ℕ)) : ℕ := (m.map (fun p => p.2)).sum

/-- The numeric language percentages of `aggregateAnalysis`: each summed byte
count divided by the grand total (`|| 1` turns a zero total into denominator
one) times 100.  `toFixed(2)` only formats these numbers for display. -/
def langPercentagesOf (analyses : List RepoAnalysis) : List (String × ℚ) :=
  (allLanguagesOf analyses).map
    (fun p =>
      (p.1, ((p.2 : ℚ) /
        (if totalBytesOf (allLanguagesOf analyses) = 0 then 1
         else (totalBytesOf (allLanguagesOf analyses) : ℚ))) * 100))

-- ── Rate-limit waits (`src/app.ts` 140-173, unnamed module 207-219) ─────────

/-- The core-API wait (interceptor): applies below ten remaining calls with a
positive reset, waiting up to the reset time plus a two-second margin. -/
def coreWaitMs (remaining reset now : ℤ) : ℤ :=
  if remaining < 10 ∧ reset > 0 then
    (if reset * 1000 - now + 2000 > 0 then reset * 1000 - now + 2000 else 0)
  else 0

/-- The search-API wait (`checkSearchRateLimit`): applies below five remaining
calls with a truthy reset. -/
def searchWaitMs (remaining reset now : ℤ) : ℤ :=
  if remaining < 5 ∧ reset ≠ 0 then
    (if reset * 1000 - now + 2000 > 0 then reset * 1000 - now + 2000 else 0)
  else 0

-- ── MAX_REPOS_TO_ANALYZE (both modules, configuration clamp) ────────────────

/-- Model of JS `parseInt(s, 10)`: skip leading whitespace, read an optional
sign and a maximal digit prefix; `none` models `NaN`. -/
def parseIntJS (s : String) : Option ℤ :=
  let cs := dropWsLead s.data
  match cs with
  | '-' :: r =>
      (match takeDigits r with
       | ([], _) => none
       | (ds, _) => some (-(digitsToNat ds : ℤ)))
  | '+' :: r =>
      (match takeDigits r with
       | ([], _) => none
       | (ds, _) => some ((digitsToNat ds : ℤ)))
  | r =>
      (match takeDigits r with
       | ([], _) => none
       | (ds, _) => some ((digitsToNat ds : ℤ)))

/-- The `MAX_REPOS_TO_ANALYZE` initializer: default 10 when the variable is
unset or empty, otherwise `Math.max(1, Math.min(100, parseInt(val, 10)))`;
`none` models the `NaN` that a non-numeric value propagates through
`Math.min`/`Math.max`. -/
def maxReposToAnalyze (envVal : Option String) : Option ℤ :=
  match envVal with
  | none => some 10
  | some v =>
      if v = "" then some 10
      else
        match parseIntJS v with
        | none => none
        | some n => some (max 1 (min 100 n))

/-- `repos.slice(0, m)` where `m` is the effective maximum: `NaN` converts to
zero, a negative end counts from the end, otherwise take at most `m`. -/
def sliceTo (l : List String) (m : Option ℤ) : List String :=
  match m with
  | none => []
  | some e => if e < 0 then l.take ((l.length : ℤ) + e).toNat else l.take e.toNat

-- ── Sub-analysis aggregates (projections used for the isolation statement) ──

/-- The languages a repository ends with, as a function of that sub-analysis
alone. -/
def langOf (e : Except Unit (List (String × ℕ))) : List (String × ℕ) :=
  match e with
  | Except.ok l => l
  | Except.error _ => []

/-- The commit sub-analysis run on a fresh record. -/
def commitAgg (cf : CommitsFetch) : RepoAnalysis := commitStep emptyAnalysis cf

/-- The PR sub-analysis run on a fresh record. -/
def prAgg (pf : PrsFetch) : RepoAnalysis := prStep emptyAnalysis pf

/-- The dependency set produced by the manifests alone. -/
def depAgg (m : ManifestsFetch) : List String := (depStep emptyAnalysis m).dependencies

-- ── Concrete program inputs used to exhibit the theorems ────────────────────

/-- A one-skill catalog. -/
def skillsC1 : List Skill := [⟨"42", "Node.js"⟩]

/-- A response whose entry name matches the catalog only after trimming and
case folding. -/
def rawC1 : String := "[\x7b\"name\":\"node.JS \",\"score\":77,\"reason\":\"uses node\"\x7d]"

/-- The recommendation produced from `rawC1`. -/
def recC1 : Recommendation := ⟨"42", "Node.js", 77, "uses node"⟩

/-- The catalog of the fenced-response scenario. -/
def skillsC2 : List Skill := [⟨"42", "Node.js"⟩]

/-- The fenced, trailing-comma response with an out-of-range score. -/
def rawC2 : String := "```json [\x7b\"name\":\"Node.js\",\"score\":150,\"reason\":\"x\"\x7d,] ```"

/-- The recommendation produced from `rawC2`: the score is clamped to 100. -/
def recC2 : Recommendation := ⟨"42", "Node.js", 100, "x"⟩

/-- A two-skill catalog. -/
def skillsC9 : List Skill := [⟨"7", "TypeScript"⟩, ⟨"8", "Go"⟩]

/-- A response with one strong and one weak entry. -/
def rawC9 : String := "[\x7b\"name\":\"TypeScript\",\"score\":95,\"reason\":\"heavy use\"\x7d,\x7b\"name\":\"Go\",\"score\":10,\"reason\":\"minor\"\x7d]"

/-- The surviving recommendation of `rawC9`; the score-10 entry is dropped. -/
def recC9 : Recommendation := ⟨"7", "TypeScript", 95, "heavy use"⟩

/-- A valid JSON array whose string content contains a comma directly before
a closing bracket. -/
def cxC6 : String := "[\x7b\"name\":\"A\",\"score\":1,\"reason\":\"x,]\"\x7d]"

/-- The direct parse of `cxC6`. -/
def jsonA6 : Json :=
  Json.arr [Json.obj [("name", Json.str "A"), ("score", Json.num 1), ("reason", Json.str "x,]")]]

/-- The parse of the repaired `cxC6`: the reason string has lost its comma. -/
def jsonB6 : Json :=
  Json.arr [Json.obj [("name", Json.str "A"), ("score", Json.num 1), ("reason", Json.str "x]")]]

/-- An already-valid, already-trimmed structured response. -/
def wC6 : String := "[\x7b\"name\":\"A\",\"score\":50,\"reason\":\"r\"\x7d]"

/-- A three-link evidence pool. -/
def linksC3 : List String :=
  ["https://github.com/o/r/pull/1",
   "https://github.com/o/r/commit/a",
   "https://github.com/o2/r2/commit/b"]

/-- A five-link duplicate-free evidence pool across two repositories. -/
def linksC3b : List String :=
  ["https://github.com/o/r/pull/1",
   "https://github.com/o/r/commit/a",
   "https://github.com/o2/r2/commit/b",
   "https://github.com/o2/r2/pull/7",
   "other-link"]

/-- An evidence pool containing a triplicated pull-request link. -/
def poolDupC3 : List String :=
  ["https://github.com/o/r/pull/1",
   "https://github.com/o/r/pull/1",
   "https://github.com/o/r/pull/1",
   "x"]

/-- A commit-search endpoint that always returns a full page, so the loop can
only stop at the hard cap. -/
def fetchCapC4 : ℕ → SearchPage CommitItem := fun _ => SearchPage.ok [⟨"o/r"⟩]

/-- A repository whose commits paging fails after one successful page: the
first page held one commit (with one detail file), then the next page request
threw an unrecognized error. -/
def d0C5 : RepoFetchData :=
  ⟨Except.ok [("TypeScript", 10)],
   ⟨[[⟨"https://github.com/o/r/commit/u1", Except.ok ["src/a.ts"]⟩]], CommitsEnd.errOther⟩,
   ⟨[["https://github.com/o/r/pull/9"]], PagesEnd.emptyPage⟩,
   ⟨Except.error (), Except.error (), Except.error ()⟩⟩

/-- Two analyzed repositories with overlapping language histograms. -/
def analysesC7 : List RepoAnalysis :=
  [⟨[("TypeScript", 30)], [], [], 0, 0, []⟩,
   ⟨[("TypeScript", 10), ("Go", 60)], [], [], 0, 0, []⟩]

/-- Analyses whose histogram has a language with zero bytes (zero total). -/
def analysesC7zero : List RepoAnalysis := [⟨[("TypeScript", 0)], [], [], 2, 1, ["e"]⟩]

/-- Is the text free of any match of the regex `,\s*]`? -/
def noCommaWsBr : List Char → Bool
  | [] => true
  | c :: rest =>
      (if c = ',' then (chompWsBracket rest).isNone else true) && noCommaWsBr rest

attribute [local semireducible] Rat.mul Rat.inv Rat.add Rat.sub Rat.ofScientific

-- ── Lemmas about the recommendation mapping ─────────────────────────────────

lemma mapEntry_ok_some {skills : List Skill} {j : Json} {r : Recommendation}
    (h : mapEntry skills j = Except.ok (some r)) :
    ∃ sk, sk ∈ skills ∧ r.id = sk.id ∧ r.name = sk.name ∧
      r.score = ((max 0 (min 100 (jsRound (scoreField j))) : ℤ) : ℚ) := by
  unfold mapEntry at h
  split at h
  · simp at h
  · split at h
    · rename_i sk hfind
      simp only [Except.ok.injEq, Option.some.injEq] at h
      subst h
      exact ⟨sk, List.mem_of_find?_eq_some hfind, rfl, rfl, rfl⟩
    · simp at h
  · simp at h

lemma mapEntriesEx_mem {skills : List Skill} {js : List Json}
    {opts : List (Option Recommendation)} (h : mapEntriesEx skills js = Except.ok opts)
    {o : Option Recommendation} (ho : o ∈ opts) :
    ∃ j, j ∈ js ∧ mapEntry skills j = Except.ok o := by
  induction js generalizing opts with
  | nil =>
      simp only [mapEntriesEx, Except.ok.injEq] at h
      subst h
      simp at ho
  | cons j js ih =>
      unfold mapEntriesEx at h
      split at h
      · simp at h
      · rename_i o0 ho0
        split at h
        · simp at h
        · rename_i os hos
          simp only [Except.ok.injEq] at h
          subst h
          rcases List.mem_cons.mp ho with rfl | hmem
          · exact ⟨j, List.mem_cons_self j js, ho0⟩
          · obtain ⟨j2, hj2, hmap⟩ := ih hos hmem
            exact ⟨j2, List.mem_cons_of_mem _ hj2, hmap⟩

/-- Every recommendation returned by the parser comes from some catalog skill
(whose id and name it copies), carries an integral clamped score, and passed
the score floor. -/
lemma parseAndMap_shape {raw : String} {skills : List Skill} {r : Recommendation}
    (hr : r ∈ parseAndMapRecommendations raw skills) :
    (∃ sk, sk ∈ skills ∧ r.id = sk.id ∧ r.name = sk.name ∧
       ∃ z : ℤ, r.score = (z : ℚ) ∧ 0 ≤ z ∧ z ≤ 100) ∧ (40 : ℚ) ≤ r.score := by
  unfold parseAndMapRecommendations at hr
  split at hr
  · rename_i parsed heq
    split at hr
    · rename_i opts hopts
      rw [List.mem_filter] at hr
      obtain ⟨hmem, hfloor⟩ := hr
      rw [List.mem_filterMap] at hmem
      obtain ⟨o, ho, hid⟩ := hmem
      obtain ⟨j, _, hmap⟩ := mapEntriesEx_mem hopts ho
      cases o with
      | none => simp at hid
      | some r2 =>
          simp only [id, Option.some.injEq] at hid
          subst hid
          obtain ⟨sk, hsk, h1, h2, h3⟩ := mapEntry_ok_some hmap
          refine ⟨⟨sk, hsk, h1, h2, max 0 (min 100 (jsRound (scoreField j))), h3, ?_, ?_⟩, ?_⟩
          · omega
          · omega
          · exact of_decide_eq_true hfloor
    · simp at hr
  · simp at hr

/-- C1: every recommendation produced by `parseAndMapRecommendations` carries
a name matching some catalog skill name by case-insensitive exact match after
trimming (it is in fact copied from the catalog), and its id is the id of
that catalog skill; an entry whose name resolves to no catalog skill never
yields a recommendation, so no output can fail this property. -/
theorem parseAndMap_names_resolve_in_catalog (raw : String) (allSkills : List Skill)
    (r : Recommendation) (hr : r ∈ parseAndMapRecommendations raw allSkills) :
    ∃ sk, sk ∈ allSkills ∧ r.id = sk.id ∧ r.name = sk.name ∧
      nameKey r.name = nameKey sk.name := by
  obtain ⟨⟨sk, hsk, h1, h2, _⟩, _⟩ := parseAndMap_shape hr
  exact ⟨sk, hsk, h1, h2, by rw [h2]⟩

/-- Witness for C1: the entry name `node.JS ` resolves to the catalog skill
`Node.js` with id 42, which the output copies. -/
theorem parseAndMap_names_resolve_in_catalog_witness :
    ∃ sk, sk ∈ skillsC1 ∧ recC1.id = sk.id ∧ recC1.name = sk.name ∧
      nameKey recC1.name = nameKey sk.name :=
  parseAndMap_names_resolve_in_catalog rawC1 skillsC1 recC1 (by
    have h : parseAndMapRecommendations rawC1 skillsC1 = [recC1] := rfl
    rw [h]
    exact List.mem_singleton.mpr rfl)

/-- C2: the score of every recommendation that survives validation and
catalog matching is an integer (the `Math.round` of the entry score) clamped
into the interval from 0 to 100, whatever score the model entry carried. -/
theorem parseAndMap_score_clamped (raw : String) (allSkills : List Skill)
    (r : Recommendation) (hr : r ∈ parseAndMapRecommendations raw allSkills) :
    ∃ z : ℤ, r.score = (z : ℚ) ∧ 0 ≤ z ∧ z ≤ 100 := by
  obtain ⟨⟨_, _, _, _, z, hz⟩, _⟩ := parseAndMap_shape hr
  exact ⟨z, hz⟩

/-- Witness for C2, the fenced scenario of the specification: input score 150
comes out as the clamped integer 100. -/
theorem parseAndMap_score_clamped_witness :
    ∃ z : ℤ, recC2.score = (z : ℚ) ∧ 0 ≤ z ∧ z ≤ 100 :=
  parseAndMap_score_clamped rawC2 skillsC2 recC2 (by
    have h : parseAndMapRecommendations rawC2 skillsC2 = [recC2] := rfl
    rw [h]
    exact List.mem_singleton.mpr rfl)

/-- C9: every recommendation in the final output scores at least the floor of
40; entries whose clamped score falls below it are removed. -/
theorem parseAndMap_score_floor (raw : String) (allSkills : List Skill)
    (r : Recommendation) (hr : r ∈ parseAndMapRecommendations raw allSkills) :
    (40 : ℚ) ≤ r.score :=
  (parseAndMap_shape hr).2

/-- Witness for C9: of the two valid entries of `rawC9` (scores 95 and 10)
only the high-scoring one survives, and the theorem applies to it. -/
theorem parseAndMap_score_floor_witness : (40 : ℚ) ≤ recC9.score :=
  parseAndMap_score_floor rawC9 skillsC9 recC9 (by
    have h : parseAndMapRecommendations rawC9 skillsC9 = [recC9] := rfl
    rw [h]
    exact List.mem_singleton.mpr rfl)

-- ── Lemmas about the repair pipeline (claim C6) ─────────────────────────────

lemma leadsWith_single {c : Char} {cs : List Char} (h : leadsWith cs [c] = true) :
    ∃ t, cs = c :: t := by
  cases cs with
  | nil => simp [leadsWith] at h
  | cons d t =>
      refine ⟨t, ?_⟩
      simp only [leadsWith, Bool.and_eq_true, decide_eq_true_eq] at h
      rw [h.1]

lemma stripFenceOpen_noop {t : List Char} : stripFenceOpen ('[' :: t) = '[' :: t := by
  unfold stripFenceOpen
  simp [leadsWith, fenceTicks]

lemma stripFenceClose_noop {cs : List Char} {t : List Char}
    (h : cs.reverse = ']' :: t) : stripFenceClose cs = cs := by
  unfold stripFenceClose endsWith
  rw [h]
  simp [leadsWith, fenceTicks]

lemma bracketSpan_noop {cs : List Char} {t t2 : List Char}
    (h1 : cs = '[' :: t) (h2 : cs.reverse = ']' :: t2) : bracketSpan cs = cs := by
  have hidx : idxOfChar '[' cs = some 0 := by rw [h1]; simp [idxOfChar]
  have hlast : lastIdxOfChar ']' cs = some (cs.length - 1) := by
    unfold lastIdxOfChar
    rw [h2]
    simp [idxOfChar]
  have hlen2 : 2 ≤ cs.length := by
    match t, h1 with
    | [], h1 => rw [h1] at h2; simp at h2
    | c :: t3, h1 => rw [h1]; simp only [List.length_cons]; omega
  unfold bracketSpan
  simp only [hidx, hlast]
  have hpos : 0 < cs.length - 1 := by omega
  rw [if_pos hpos]
  unfold sliceChars
  rw [List.drop_zero]
  have : cs.length - 1 + 1 - 0 = cs.length := by omega
  rw [this, List.take_length]

lemma stepCommaWsGo_noop : ∀ (fuel : ℕ) (cs : List Char), noCommaWsBr cs = true →
    stepCommaWsGo fuel cs = cs := by
  intro fuel
  induction fuel with
  | zero => intro cs _; rfl
  | succ fuel ih =>
      intro cs h
      cases cs with
      | nil => rfl
      | cons c rest =>
          simp only [noCommaWsBr, Bool.and_eq_true] at h
          simp only [stepCommaWsGo]
          by_cases hc : c = ','
          · rw [if_pos hc]
            rw [if_pos hc] at h
            have hn : chompWsBracket rest = none := by
              cases hcw : chompWsBracket rest with
              | none => rfl
              | some r => rw [hcw] at h; simp at h
            rw [hn, ih rest h.2, hc]
          · rw [if_neg hc]
            rw [ih rest h.2]

lemma stepCommaWs_noop {cs : List Char} (h : noCommaWsBr cs = true) :
    stepCommaWs cs = cs := stepCommaWsGo_noop cs.length cs h

lemma forceClose_noop {cs : List Char} (h : endsWith cs [']'] = true) :
    forceClose cs = cs := by
  unfold forceClose
  rw [h]
  simp

lemma trimAfterFinal_noop {cs : List Char} {t2 : List Char}
    (h2 : cs.reverse = ']' :: t2) : trimAfterFinal cs = cs := by
  have hlast : lastIdxOfChar ']' cs = some (cs.length - 1) := by
    unfold lastIdxOfChar
    rw [h2]
    simp [idxOfChar]
  have hlen : 1 ≤ cs.length := by
    cases cs with
    | nil => simp at h2
    | cons c t => simp only [List.length_cons]; omega
  unfold trimAfterFinal
  simp only [hlast]
  have h3 : cs.length - 1 + 1 = cs.length := by omega
  rw [h3]
  unfold takeChars
  rw [List.take_length]

lemma mk_data_eq (s : String) : String.mk s.data = s := rfl

/-- C6 (amended): on already-trimmed text that is a valid JSON value starting
with `[` and ending with `]` and containing no comma-whitespace-bracket
sequence, every repair step of the recovery pipeline is a no-op and the parse
of the repaired text equals the direct parse.  (The restriction on
comma-bracket sequences is forced: the global `,\s*]` replace also rewrites
string contents, see the counterexample.) -/
theorem cleanResponse_noop_on_valid (s : String)
    (ht : trimChars s.data = s.data)
    (hopen : leadsWith s.data ['['] = true)
    (hclose : endsWith s.data [']'] = true)
    (hnc : noCommaWsBr s.data = true)
    (_hv : (jsonParse s).isSome = true) :
    cleanResponse s = s ∧ jsonParse (cleanResponse s) = jsonParse s := by
  obtain ⟨t, h1⟩ := leadsWith_single hopen
  obtain ⟨t2, h2⟩ := leadsWith_single (by
    unfold endsWith at hclose
    simpa using hclose)
  have hmain : cleanChars s.data = s.data := by
    show trimAfterFinal (forceClose (stepCommaWs (bracketSpan
      (stripFenceClose (stripFenceOpen (trimChars s.data)))))) = s.data
    rw [ht, h1, stripFenceOpen_noop, ← h1,
      stripFenceClose_noop h2, bracketSpan_noop h1 h2, stepCommaWs_noop hnc,
      forceClose_noop hclose, trimAfterFinal_noop h2]
  have hcr : cleanResponse s = s := by
    unfold cleanResponse
    rw [hmain, mk_data_eq]
  exact ⟨hcr, by rw [hcr]⟩

/-- Witness for C6 (amended): a plain valid array response is untouched by
the pipeline. -/
theorem cleanResponse_noop_on_valid_witness :
    cleanResponse wC6 = wC6 ∧ jsonParse (cleanResponse wC6) = jsonParse wC6 :=
  cleanResponse_noop_on_valid wC6 rfl rfl rfl rfl rfl

/-- Counterexample for C6: `cxC6` is an already-trimmed valid JSON array (its
single entry carries the reason string `x,]`), yet the trailing-comma step of
the pipeline rewrites the inside of that string, so the repair is not a no-op
and the parse of the repaired text differs from the direct parse. -/
theorem cleanResponse_rewrites_valid_array :
    trimChars cxC6.data = cxC6.data ∧
    jsonParse cxC6 = some jsonA6 ∧
    cleanResponse cxC6 ≠ cxC6 ∧
    jsonParse (cleanResponse cxC6) = some jsonB6 ∧
    jsonB6 ≠ jsonA6 := by
  refine ⟨rfl, rfl, by decide, rfl, ?_⟩
  intro h
  simp only [jsonB6, jsonA6, Json.arr.injEq, List.cons.injEq, Json.obj.injEq,
    Prod.mk.injEq, Json.str.injEq, and_true, true_and] at h
  exact absurd h (by decide)

-- ── Lemmas about the capped search loops (claim C4) ─────────────────────────

lemma searchLoopGo_pages {α : Type} (fetch : ℕ → SearchPage α) (extract : α → String) :
    ∀ (fuel page : ℕ) (repos : List String),
      ∀ p ∈ (searchLoopGo fetch extract fuel page repos).requested, p * 100 ≤ 1000 := by
  intro fuel
  induction fuel with
  | zero => intro page repos p hp; simp [searchLoopGo] at hp
  | succ fuel ih =>
      intro page repos p hp
      unfold searchLoopGo at hp
      by_cases hcap : page * 100 > 1000
      · rw [if_pos hcap] at hp; simp at hp
      · rw [if_neg hcap] at hp
        split at hp
        · simp at hp; omega
        · simp at hp; omega
        · split at hp
          · simp at hp; omega
          · simp only [List.mem_cons] at hp
            rcases hp with rfl | hp
            · omega
            · exact ih (page + 1) _ p hp

lemma searchLoopGo_limited_iff {α : Type} (fetch : ℕ → SearchPage α) (extract : α → String) :
    ∀ (fuel page : ℕ) (repos : List String),
      (searchLoopGo fetch extract fuel page repos).limited =
        ((searchLoopGo fetch extract fuel page repos).cause == StopCause.capped ||
          (searchLoopGo fetch extract fuel page repos).cause == StopCause.window) := by
  intro fuel
  induction fuel with
  | zero => intro page repos; rfl
  | succ fuel ih =>
      intro page repos
      unfold searchLoopGo
      by_cases hcap : page * 100 > 1000
      · rw [if_pos hcap]
        rfl
      · rw [if_neg hcap]
        cases hfetch : fetch page with
        | windowErr => rfl
        | otherErr => rfl
        | ok items =>
            dsimp only
            by_cases hlen : items.length = 0
            · rw [if_pos hlen]
              rfl
            · rw [if_neg hlen]
              exact ih (page + 1) _

/-- C4: in both capped paged searches (commit search and PR search, page size
100, hard cap 1000) no page request is ever issued for a page number whose
`page * 100` exceeds 1000, and whenever the loop stops because of the cap
predicate or the recognized result-window error, the partial-results flag of
that search is set. -/
theorem cappedSearch_spec (cf : ℕ → SearchPage CommitItem) (pf : ℕ → SearchPage PrItem)
    (r0 r1 : List String) :
    (∀ p ∈ (commitSearchRun cf r0).requested, p * 100 ≤ 1000) ∧
    ((commitSearchRun cf r0).cause = StopCause.capped ∨
        (commitSearchRun cf r0).cause = StopCause.window →
      (commitSearchRun cf r0).limited = true) ∧
    (∀ p ∈ (prSearchRun pf r1).requested, p * 100 ≤ 1000) ∧
    ((prSearchRun pf r1).cause = StopCause.capped ∨
        (prSearchRun pf r1).cause = StopCause.window →
      (prSearchRun pf r1).limited = true) := by
  refine ⟨searchLoopGo_pages cf _ 12 1 r0, ?_, searchLoopGo_pages pf _ 12 1 r1, ?_⟩
  · intro h
    unfold commitSearchRun at h ⊢
    rw [searchLoopGo_limited_iff]
    rcases h with h | h <;> rw [h] <;> rfl
  · intro h
    unfold prSearchRun at h ⊢
    rw [searchLoopGo_limited_iff]
    rcases h with h | h <;> rw [h] <;> rfl

/-- Witness for C4: against an endpoint that always returns a full page the
commit loop requests pages 1 to 10 only, stops at the cap before issuing page
11, and sets its flag. -/
theorem cappedSearch_spec_witness :
    (10 * 100 ≤ 1000) ∧ (commitSearchRun fetchCapC4 []).limited = true :=
  ⟨(cappedSearch_spec fetchCapC4 (fun _ => SearchPage.ok []) [] []).1 10 (by decide),
   (cappedSearch_spec fetchCapC4 (fun _ => SearchPage.ok []) [] []).2.1 (Or.inl (by decide))⟩

-- ── Rate limiter (claim C8) ─────────────────────────────────────────────────

/-- C8: both rate limiters compute a zero wait whenever the remaining quota
is at or above their low-water mark (10 for the core surface, 5 for the
search surface) regardless of the reset epoch; below the mark with a reset in
the future, the computed wait suspends exactly until the reset time plus the
two-second safety margin. -/
theorem rateLimit_wait_spec (remaining reset now : ℤ) (hnow : 0 ≤ now) :
    (10 ≤ remaining → coreWaitMs remaining reset now = 0) ∧
    (remaining < 10 → now < reset * 1000 →
      now + coreWaitMs remaining reset now = reset * 1000 + 2000) ∧
    (5 ≤ remaining → searchWaitMs remaining reset now = 0) ∧
    (remaining < 5 → now < reset * 1000 →
      now + searchWaitMs remaining reset now = reset * 1000 + 2000) := by
  unfold coreWaitMs searchWaitMs
  refine ⟨?_, ?_, ?_, ?_⟩
  · intro h
    rw [if_neg]
    omega
  · intro h1 h2
    rw [if_pos ⟨h1, by nlinarith⟩, if_pos (by omega)]
    omega
  · intro h
    rw [if_neg]
    omega
  · intro h1 h2
    have hr : reset ≠ 0 := by nlinarith
    rw [if_pos ⟨h1, hr⟩, if_pos (by omega)]
    omega

/-- Witness for C8: with 50 remaining the core wait is zero even with a
future reset; with 3 remaining and reset epoch 5 at time 1000 ms the flow
sleeps until 7000 ms. -/
theorem rateLimit_wait_spec_witness :
    coreWaitMs 50 5 1000 = 0 ∧ (1000 : ℤ) + coreWaitMs 3 5 1000 = 5 * 1000 + 2000 ∧
    searchWaitMs 7 5 1000 = 0 ∧ (1000 : ℤ) + searchWaitMs 4 5 1000 = 5 * 1000 + 2000 :=
  ⟨(rateLimit_wait_spec 50 5 1000 (by decide)).1 (by decide),
   (rateLimit_wait_spec 3 5 1000 (by decide)).2.1 (by decide) (by decide),
   (rateLimit_wait_spec 7 5 1000 (by decide)).2.2.1 (by decide),
   (rateLimit_wait_spec 4 5 1000 (by decide)).2.2.2 (by decide) (by decide)⟩

-- ── Repository cap configuration (claim C10) ────────────────────────────────

/-- C10 (amended): the effective maximum defaults to 10 when the variable is
unset or empty; whenever parsing yields a number the clamp lands in the
interval from 1 to 100; and in every case (including the `NaN` produced by a
non-numeric value, when zero repositories are sliced) at most 100
repositories are analyzed. -/
theorem maxRepos_clamped (envVal : Option String) (l : List String) :
    maxReposToAnalyze none = some 10 ∧
    (∀ n : ℤ, maxReposToAnalyze envVal = some n → 1 ≤ n ∧ n ≤ 100) ∧
    (sliceTo l (maxReposToAnalyze envVal)).length ≤ 100 := by
  refine ⟨rfl, ?_, ?_⟩
  · intro n hn
    unfold maxReposToAnalyze at hn
    match envVal with
    | none => simp at hn; omega
    | some v =>
        dsimp only at hn
        by_cases hv : v = ""
        · rw [if_pos hv] at hn
          simp at hn
          omega
        · rw [if_neg hv] at hn
          cases hp : parseIntJS v with
          | none => rw [hp] at hn; simp at hn
          | some k =>
              rw [hp] at hn
              simp at hn
              omega
  · unfold sliceTo
    match hm : maxReposToAnalyze envVal with
    | none => simp
    | some e =>
        have he : 1 ≤ e ∧ e ≤ 100 := by
          unfold maxReposToAnalyze at hm
          match envVal with
          | none => simp at hm; omega
          | some v =>
              dsimp only at hm
              by_cases hv : v = ""
              · rw [if_pos hv] at hm
                simp at hm
                omega
              · rw [if_neg hv] at hm
                cases hp : parseIntJS v with
                | none => rw [hp] at hm; simp at hm
                | some k =>
                    rw [hp] at hm
                    simp at hm
                    omega
        dsimp only
        rw [if_neg (by omega)]
        simp only [List.length_take]
        omega

/-- Witness for C10 (amended): value `25` parses, clamps inside the interval,
and at most 100 repositories are sliced. -/
theorem maxRepos_clamped_witness :
    ((1 : ℤ) ≤ 25 ∧ (25 : ℤ) ≤ 100) ∧
    (sliceTo ["r1", "r2", "r3"] (maxReposToAnalyze (some "25"))).length ≤ 100 :=
  ⟨(maxRepos_clamped (some "25") ["r1", "r2", "r3"]).2.1 25 rfl,
   (maxRepos_clamped (some "25") ["r1", "r2", "r3"]).2.2⟩

/-- Counterexample for C10: the value `abc` parses to `NaN`, which
`Math.min`/`Math.max` propagate, so the effective maximum is not an integer
clamped into the interval from 1 to 100 -- and the subsequent slice analyzes
zero repositories. -/
theorem maxRepos_nan_escapes_clamp :
    maxReposToAnalyze (some "abc") = none ∧
    sliceTo ["r1", "r2", "r3"] (maxReposToAnalyze (some "abc")) = [] :=
  ⟨rfl, rfl⟩

-- ── Language percentages (claim C7) ─────────────────────────────────────────

lemma nat_list_sum_zero {l : List ℕ} (h : l.sum = 0) : ∀ x ∈ l, x = 0 := by
  induction l with
  | nil => intro x hx; simp at hx
  | cons a t ih =>
      intro x hx
      rw [List.sum_cons] at h
      rcases List.mem_cons.mp hx with rfl | hx
      · omega
      · exact ih (by omega) x hx

/-- C7: the aggregated language percentages (each language summed byte count
over the grand total, times 100) sum to exactly 100 whenever the grand total
is positive, and are all zero when it is zero (the `|| 1` denominator). -/
theorem langPercentages_spec (analyses : List RepoAnalysis) :
    (0 < totalBytesOf (allLanguagesOf analyses) →
      ((langPercentagesOf analyses).map (fun p => p.2)).sum = 100) ∧
    (totalBytesOf (allLanguagesOf analyses) = 0 →
      ∀ p ∈ langPercentagesOf analyses, p.2 = 0) := by
  constructor
  · intro hpos
    have hTne : totalBytesOf (allLanguagesOf analyses) ≠ 0 := by omega
    have hTq : ((totalBytesOf (allLanguagesOf analyses) : ℕ) : ℚ) ≠ 0 := by
      exact_mod_cast hTne
    unfold langPercentagesOf
    rw [if_neg hTne, List.map_map]
    have hcongr :
        ((fun p => p.2) ∘ fun p : String × ℕ =>
            (p.1, ((p.2 : ℚ) / (totalBytesOf (allLanguagesOf analyses) : ℚ)) * 100)) =
          fun p : String × ℕ =>
            (p.2 : ℚ) * ((100 : ℚ) / (totalBytesOf (allLanguagesOf analyses) : ℚ)) := by
      funext p
      simp only [Function.comp]
      field_simp
    rw [hcongr, List.sum_map_mul_right]
    have hsum :
        ((allLanguagesOf analyses).map fun p : String × ℕ => ((p.2 : ℕ) : ℚ)).sum =
          ((totalBytesOf (allLanguagesOf analyses) : ℕ) : ℚ) := by
      unfold totalBytesOf
      rw [Nat.cast_list_sum, List.map_map]
      rfl
    rw [hsum]
    field_simp
  · intro hzero
    intro p hp
    unfold langPercentagesOf at hp
    rw [List.mem_map] at hp
    obtain ⟨q, hq, rfl⟩ := hp
    have hq0 : q.2 = 0 :=
      nat_list_sum_zero hzero q.2 (List.mem_map_of_mem (fun p => p.2) hq)
    simp [hq0]

/-- Witness for C7: two repositories with overlapping histograms (total 100
bytes) give percentages summing to 100; a histogram whose only entry has zero
bytes gives the all-zero table. -/
theorem langPercentages_spec_witness :
    ((langPercentagesOf analysesC7).map (fun p => p.2)).sum = 100 ∧
    ∀ p ∈ langPercentagesOf analysesC7zero, p.2 = 0 :=
  ⟨(langPercentages_spec analysesC7).1 (by decide),
   (langPercentages_spec analysesC7zero).2 (by decide)⟩

-- ── Lemmas about sub-analysis isolation (claim C5) ──────────────────────────

lemma commitOne_untouched (acc : RepoAnalysis) (c : CommitInfo) :
    (commitOne acc c).languages = acc.languages ∧
    (commitOne acc c).dependencies = acc.dependencies ∧
    (commitOne acc c).prCount = acc.prCount ∧
    (commitOne acc c).commitCount = acc.commitCount := by
  unfold commitOne
  split <;> exact ⟨rfl, rfl, rfl, rfl⟩

lemma commitOne_congr {acc acc' : RepoAnalysis} (c : CommitInfo)
    (h2 : acc.fileTypes = acc'.fileTypes) (h3 : acc.evidence = acc'.evidence) :
    (commitOne acc c).fileTypes = (commitOne acc' c).fileTypes ∧
    (commitOne acc c).evidence = (commitOne acc' c).evidence := by
  unfold commitOne
  split <;> simp [h2, h3]

lemma foldl_commitOne_untouched : ∀ (p : List CommitInfo) (acc : RepoAnalysis),
    ((p.foldl commitOne acc).languages = acc.languages ∧
     (p.foldl commitOne acc).dependencies = acc.dependencies ∧
     (p.foldl commitOne acc).prCount = acc.prCount ∧
     (p.foldl commitOne acc).commitCount = acc.commitCount) := by
  intro p
  induction p with
  | nil => intro acc; exact ⟨rfl, rfl, rfl, rfl⟩
  | cons c p ih =>
      intro acc
      rw [List.foldl_cons]
      obtain ⟨u1, u2, u3, u4⟩ := commitOne_untouched acc c
      obtain ⟨v1, v2, v3, v4⟩ := ih (commitOne acc c)
      exact ⟨v1.trans u1, v2.trans u2, v3.trans u3, v4.trans u4⟩

lemma foldl_commitOne_congr : ∀ (p : List CommitInfo) (acc acc' : RepoAnalysis),
    acc.fileTypes = acc'.fileTypes → acc.evidence = acc'.evidence →
    ((p.foldl commitOne acc).fileTypes = (p.foldl commitOne acc').fileTypes ∧
     (p.foldl commitOne acc).evidence = (p.foldl commitOne acc').evidence) := by
  intro p
  induction p with
  | nil => intro acc acc' h2 h3; exact ⟨h2, h3⟩
  | cons c p ih =>
      intro acc acc' h2 h3
      rw [List.foldl_cons, List.foldl_cons]
      obtain ⟨w2, w3⟩ := commitOne_congr c h2 h3
      exact ih (commitOne acc c) (commitOne acc' c) w2 w3

lemma commitFold_untouched (a : RepoAnalysis) (p : List CommitInfo) :
    (commitFold a p).languages = a.languages ∧
    (commitFold a p).dependencies = a.dependencies ∧
    (commitFold a p).prCount = a.prCount := by
  unfold commitFold
  obtain ⟨v1, v2, v3, _⟩ := foldl_commitOne_untouched p { a with commitCount := a.commitCount + p.length }
  exact ⟨v1, v2, v3⟩

lemma commitFold_congr {a b : RepoAnalysis} (p : List CommitInfo)
    (h1 : a.commitCount = b.commitCount) (h2 : a.fileTypes = b.fileTypes)
    (h3 : a.evidence = b.evidence) :
    (commitFold a p).commitCount = (commitFold b p).commitCount ∧
    (commitFold a p).fileTypes = (commitFold b p).fileTypes ∧
    (commitFold a p).evidence = (commitFold b p).evidence := by
  unfold commitFold
  obtain ⟨w2, w3⟩ := foldl_commitOne_congr p
    { a with commitCount := a.commitCount + p.length }
    { b with commitCount := b.commitCount + p.length } h2 h3
  obtain ⟨_, _, _, u4⟩ := foldl_commitOne_untouched p { a with commitCount := a.commitCount + p.length }
  obtain ⟨_, _, _, u4b⟩ := foldl_commitOne_untouched p { b with commitCount := b.commitCount + p.length }
  refine ⟨?_, w2, w3⟩
  rw [u4, u4b]
  simp [h1]

lemma commitPagesGo_untouched : ∀ (ps : List (List CommitInfo)) (a : RepoAnalysis),
    (commitPagesGo a ps).languages = a.languages ∧
    (commitPagesGo a ps).dependencies = a.dependencies ∧
    (commitPagesGo a ps).prCount = a.prCount := by
  intro ps
  induction ps with
  | nil => intro a; exact ⟨rfl, rfl, rfl⟩
  | cons p ps ih =>
      intro a
      unfold commitPagesGo
      by_cases hp : p.length = 0
      · rw [if_pos hp]; exact ⟨rfl, rfl, rfl⟩
      · rw [if_neg hp]
        obtain ⟨u1, u2, u3⟩ := commitFold_untouched a p
        obtain ⟨v1, v2, v3⟩ := ih (commitFold a p)
        exact ⟨v1.trans u1, v2.trans u2, v3.trans u3⟩

lemma commitPagesGo_congr : ∀ (ps : List (List CommitInfo)) (a b : RepoAnalysis),
    a.commitCount = b.commitCount → a.fileTypes = b.fileTypes → a.evidence = b.evidence →
    ((commitPagesGo a ps).commitCount = (commitPagesGo b ps).commitCount ∧
     (commitPagesGo a ps).fileTypes = (commitPagesGo b ps).fileTypes ∧
     (commitPagesGo a ps).evidence = (commitPagesGo b ps).evidence) := by
  intro ps
  induction ps with
  | nil => intro a b h1 h2 h3; exact ⟨h1, h2, h3⟩
  | cons p ps ih =>
      intro a b h1 h2 h3
      unfold commitPagesGo
      by_cases hp : p.length = 0
      · rw [if_pos hp, if_pos hp]; exact ⟨h1, h2, h3⟩
      · rw [if_neg hp, if_neg hp]
        obtain ⟨w1, w2, w3⟩ := commitFold_congr p h1 h2 h3
        exact ih (commitFold a p) (commitFold b p) w1 w2 w3

lemma prPagesGo_untouched : ∀ (ps : List (List String)) (a : RepoAnalysis),
    (prPagesGo a ps).languages = a.languages ∧
    (prPagesGo a ps).dependencies = a.dependencies ∧
    (prPagesGo a ps).fileTypes = a.fileTypes ∧
    (prPagesGo a ps).commitCount = a.commitCount := by
  intro ps
  induction ps with
  | nil => intro a; exact ⟨rfl, rfl, rfl, rfl⟩
  | cons p ps ih =>
      intro a
      unfold prPagesGo
      by_cases hp : p.length = 0
      · rw [if_pos hp]; exact ⟨rfl, rfl, rfl, rfl⟩
      · rw [if_neg hp]
        exact ih _

lemma prPagesGo_comp : ∀ (ps : List (List String)) (a : RepoAnalysis),
    (prPagesGo a ps).evidence = a.evidence ++ (prPagesGo emptyAnalysis ps).evidence ∧
    (prPagesGo a ps).prCount = a.prCount + (prPagesGo emptyAnalysis ps).prCount := by
  intro ps
  induction ps with
  | nil => intro a; simp [prPagesGo, emptyAnalysis]
  | cons p ps ih =>
      intro a
      unfold prPagesGo
      by_cases hp : p.length = 0
      · rw [if_pos hp, if_pos hp]
        simp [emptyAnalysis]
      · rw [if_neg hp, if_neg hp]
        obtain ⟨e1, c1⟩ := ih { a with prCount := a.prCount + p.length, evidence := a.evidence ++ p }
        obtain ⟨e2, c2⟩ := ih { emptyAnalysis with
          prCount := emptyAnalysis.prCount + p.length, evidence := emptyAnalysis.evidence ++ p }
        constructor
        · rw [e1, e2]
          simp [emptyAnalysis]
        · rw [c1, c2]
          simp [emptyAnalysis]
          omega

lemma langStep_untouched (a : RepoAnalysis) (e : Except Unit (List (String × ℕ))) :
    (langStep a e).dependencies = a.dependencies ∧
    (langStep a e).fileTypes = a.fileTypes ∧
    (langStep a e).commitCount = a.commitCount ∧
    (langStep a e).prCount = a.prCount ∧
    (langStep a e).evidence = a.evidence := by
  cases e <;> exact ⟨rfl, rfl, rfl, rfl, rfl⟩

lemma langStep_languages (e : Except Unit (List (String × ℕ))) :
    (langStep emptyAnalysis e).languages = langOf e := by
  cases e <;> rfl

lemma manifestAdd_untouched (a : RepoAnalysis) (ds : List String) :
    (manifestAdd a ds).languages = a.languages ∧
    (manifestAdd a ds).fileTypes = a.fileTypes ∧
    (manifestAdd a ds).commitCount = a.commitCount ∧
    (manifestAdd a ds).prCount = a.prCount ∧
    (manifestAdd a ds).evidence = a.evidence :=
  ⟨rfl, rfl, rfl, rfl, rfl⟩

lemma depStep1_untouched (a : RepoAnalysis) (e : Except Unit String) :
    (depStep1 a e).languages = a.languages ∧
    (depStep1 a e).fileTypes = a.fileTypes ∧
    (depStep1 a e).commitCount = a.commitCount ∧
    (depStep1 a e).prCount = a.prCount ∧
    (depStep1 a e).evidence = a.evidence := by
  unfold depStep1
  split
  · exact ⟨rfl, rfl, rfl, rfl, rfl⟩
  · split <;> exact ⟨rfl, rfl, rfl, rfl, rfl⟩

lemma depStep2_untouched (a : RepoAnalysis) (e : Except Unit String) :
    (depStep2 a e).languages = a.languages ∧
    (depStep2 a e).fileTypes = a.fileTypes ∧
    (depStep2 a e).commitCount = a.commitCount ∧
    (depStep2 a e).prCount = a.prCount ∧
    (depStep2 a e).evidence = a.evidence := by
  unfold depStep2
  split <;> exact ⟨rfl, rfl, rfl, rfl, rfl⟩

lemma depStep3_untouched (a : RepoAnalysis) (e : Except Unit String) :
    (depStep3 a e).languages = a.languages ∧
    (depStep3 a e).fileTypes = a.fileTypes ∧
    (depStep3 a e).commitCount = a.commitCount ∧
    (depStep3 a e).prCount = a.prCount ∧
    (depStep3 a e).evidence = a.evidence := by
  unfold depStep3
  split <;> exact ⟨rfl, rfl, rfl, rfl, rfl⟩

lemma depStep_untouched (a : RepoAnalysis) (m : ManifestsFetch) :
    (depStep a m).languages = a.languages ∧
    (depStep a m).fileTypes = a.fileTypes ∧
    (depStep a m).commitCount = a.commitCount ∧
    (depStep a m).prCount = a.prCount ∧
    (depStep a m).evidence = a.evidence := by
  unfold depStep
  obtain ⟨a1, a2, a3, a4, a5⟩ := depStep1_untouched a m.packageJson
  obtain ⟨b1, b2, b3, b4, b5⟩ := depStep2_untouched (depStep1 a m.packageJson) m.requirementsTxt
  obtain ⟨c1, c2, c3, c4, c5⟩ :=
    depStep3_untouched (depStep2 (depStep1 a m.packageJson) m.requirementsTxt) m.pomXml
  exact ⟨c1.trans (b1.trans a1), c2.trans (b2.trans a2), c3.trans (b3.trans a3),
    c4.trans (b4.trans a4), c5.trans (b5.trans a5)⟩

lemma depStep1_dep_congr {a b : RepoAnalysis} (e : Except Unit String)
    (h : a.dependencies = b.dependencies) :
    (depStep1 a e).dependencies = (depStep1 b e).dependencies := by
  unfold depStep1
  split
  · exact h
  · split <;> simp [manifestAdd, h]

lemma depStep2_dep_congr {a b : RepoAnalysis} (e : Except Unit String)
    (h : a.dependencies = b.dependencies) :
    (depStep2 a e).dependencies = (depStep2 b e).dependencies := by
  unfold depStep2
  split
  · exact h
  · simp [manifestAdd, h]

lemma depStep3_dep_congr {a b : RepoAnalysis} (e : Except Unit String)
    (h : a.dependencies = b.dependencies) :
    (depStep3 a e).dependencies = (depStep3 b e).dependencies := by
  unfold depStep3
  split
  · exact h
  · simp [manifestAdd, h]

lemma depStep_dep_congr {a b : RepoAnalysis} (m : ManifestsFetch)
    (h : a.dependencies = b.dependencies) :
    (depStep a m).dependencies = (depStep b m).dependencies := by
  unfold depStep
  exact depStep3_dep_congr m.pomXml
    (depStep2_dep_congr m.requirementsTxt (depStep1_dep_congr m.packageJson h))

lemma analyzeRepos_fold (env : String → RepoFetchData) :
    ∀ (repos : List String) (acc : List (String × RepoAnalysis) × ℕ × ℕ),
      (repos.foldl
        (fun acc r =>
          let a := analyzeSingleRepo (env r)
          (acc.1 ++ [(r, a)], acc.2.1 + a.commitCount, acc.2.2 + a.prCount)) acc).1 =
        acc.1 ++ repos.map (fun r => (r, analyzeSingleRepo (env r))) := by
  intro repos
  induction repos with
  | nil => intro acc; simp
  | cons r rest ih =>
      intro acc
      rw [List.foldl_cons, List.map_cons]
      rw [ih]
      simp

/-- C5 (amended): per-repository analysis isolates sub-analyses.  The record
of every repository equals `analyzeSingleRepo` of that repository data alone
(and the run records every repository, never aborting); within one
repository, each field of the result is a function of its own sub-analysis
only: languages depend only on the languages call (empty on failure),
commit count and file types only on the commits paging, the PR count only on
the PR paging, the evidence is the commit evidence followed by the PR
evidence, and the dependency set depends only on the manifests.  A
sub-analysis that fails keeps the data accumulated before the failure, which
is empty/default exactly when the failure precedes any successful page (last
conjunct). -/
theorem analyzeRepos_isolation (env : String → RepoFetchData) (repos : List String)
    (d : RepoFetchData) (o : CommitsEnd) :
    (analyzeRepos env repos).1 = repos.map (fun r => (r, analyzeSingleRepo (env r))) ∧
    (analyzeSingleRepo d).languages = langOf d.languages ∧
    (analyzeSingleRepo d).commitCount = (commitAgg d.commits).commitCount ∧
    (analyzeSingleRepo d).fileTypes = (commitAgg d.commits).fileTypes ∧
    (analyzeSingleRepo d).prCount = (prAgg d.prs).prCount ∧
    (analyzeSingleRepo d).evidence =
      (commitAgg d.commits).evidence ++ (prAgg d.prs).evidence ∧
    (analyzeSingleRepo d).dependencies = depAgg d.manifests ∧
    commitAgg ⟨[], o⟩ = emptyAnalysis := by
  have hmap : (analyzeRepos env repos).1 =
      repos.map (fun r => (r, analyzeSingleRepo (env r))) := by
    unfold analyzeRepos
    rw [analyzeRepos_fold env repos ([], 0, 0)]
    simp
  -- abbreviations for the chained records
  set A0 := langStep emptyAnalysis d.languages with hA0
  set A1 := commitStep A0 d.commits with hA1
  set A2 := prStep A1 d.prs with hA2
  have hsingle : analyzeSingleRepo d = depStep A2 d.manifests := rfl
  obtain ⟨l0d, l0f, l0c, l0p, l0e⟩ := langStep_untouched emptyAnalysis d.languages
  obtain ⟨c1l, c1d, c1p⟩ := commitPagesGo_untouched d.commits.pages A0
  obtain ⟨ccc, ccf, cce⟩ := commitPagesGo_congr d.commits.pages A0 emptyAnalysis
    (by rw [l0c]) (by rw [l0f]) (by rw [l0e])
  obtain ⟨p1l, p1d, p1f, p1c⟩ := prPagesGo_untouched d.prs.pages A1
  obtain ⟨pe, pc⟩ := prPagesGo_comp d.prs.pages A1
  obtain ⟨d1l, d1f, d1c, d1p, d1e⟩ := depStep_untouched A2 d.manifests
  have hA1l : A1.languages = A0.languages := c1l
  have hA2l : A2.languages = A0.languages := by
    rw [hA2]
    unfold prStep
    rw [p1l, hA1l]
  refine ⟨hmap, ?_, ?_, ?_, ?_, ?_, ?_, rfl⟩
  · rw [hsingle, d1l, hA2l, hA0, langStep_languages]
  · rw [hsingle, d1c]
    have : A2.commitCount = A1.commitCount := p1c
    rw [this, hA1]
    exact ccc
  · rw [hsingle, d1f]
    have : A2.fileTypes = A1.fileTypes := p1f
    rw [this, hA1]
    exact ccf
  · rw [hsingle, d1p]
    rw [hA2]
    unfold prStep
    rw [pc]
    have hA1p : A1.prCount = 0 := by
      rw [hA1]
      unfold commitStep
      rw [c1p, hA0, l0p]
      rfl
    rw [hA1p]
    unfold prAgg prStep
    omega
  · rw [hsingle, d1e]
    rw [hA2]
    unfold prStep
    rw [pe]
    have hA1e : A1.evidence = (commitAgg d.commits).evidence := by
      rw [hA1]
      exact cce
    rw [hA1e]
    rfl
  · rw [hsingle]
    have hA2d : A2.dependencies = emptyAnalysis.dependencies := by
      rw [hA2]
      unfold prStep
      rw [p1d, hA1]
      unfold commitStep
      rw [c1d, l0d]
    exact depStep_dep_congr d.manifests hA2d

/-- Counterexample for C5: repository data `d0C5`, whose commits paging fails
with an unrecognized error after one successful page, still yields a commit
count of 1, a file type and a commit evidence link -- the failing sub-analysis
keeps its accumulated data instead of yielding empty/default data (while the
other sub-analyses and the run are indeed unaffected). -/
theorem analyze_partial_not_default :
    d0C5.commits.outcome = CommitsEnd.errOther ∧
    (analyzeSingleRepo d0C5).commitCount = 1 ∧
    (analyzeSingleRepo d0C5).fileTypes = ["ts"] ∧
    (analyzeSingleRepo d0C5).evidence ≠ (emptyAnalysis.evidence ++ ["https://github.com/o/r/pull/9"]) ∧
    (analyzeRepos (fun _ => d0C5) ["o/r"]).1.length = 1 :=
  ⟨rfl, rfl, rfl, by decide, rfl⟩

-- ── Lemmas about the fresh evidence sampler (claim C3) ──────────────────────

lemma getD_cons_eraseIdx_perm : ∀ (l : List String) (i : ℕ), i < l.length →
    (l.getD i "" :: l.eraseIdx i).Perm l := by
  intro l
  induction l with
  | nil => intro i hi; simp at hi
  | cons a t ih =>
      intro i hi
      cases i with
      | zero => simp
      | succ m =>
          simp only [List.getD_cons_succ, List.eraseIdx_cons_succ]
          have hm : m < t.length := by simpa using hi
          exact (List.Perm.swap a (t.getD m "") (t.eraseIdx m)).trans
            (List.Perm.cons a (ih m hm))

lemma swap_head_perm : ∀ (t : List String) (k : ℕ) (a : String), k < t.length →
    (t.getD k "" :: t.set k a).Perm (a :: t) := by
  intro t
  induction t with
  | nil => intro k a hk; simp at hk
  | cons b t2 ih =>
      intro k a hk
      cases k with
      | zero => simpa using List.Perm.swap a b t2
      | succ m =>
          simp only [List.getD_cons_succ, List.set_cons_succ]
          have hm : m < t2.length := by simpa using hk
          exact (List.Perm.swap b (t2.getD m "") (t2.set m a)).trans
            ((List.Perm.cons b (ih m a hm)).trans (List.Perm.swap a b t2))

lemma swapIdx_perm : ∀ (l : List String) (i j : ℕ), i < l.length → j < l.length →
    (swapIdx l i j).Perm l := by
  intro l
  induction l with
  | nil => intro i j hi _; simp at hi
  | cons a t ih =>
      intro i j hi hj
      cases i with
      | zero =>
          cases j with
          | zero => simp [swapIdx]
          | succ k =>
              have hk : k < t.length := by simpa using hj
              simp only [swapIdx, List.getD_cons_succ, List.getD_cons_zero,
                List.set_cons_zero, List.set_cons_succ]
              exact swap_head_perm t k a hk
      | succ m =>
          cases j with
          | zero =>
              have hm : m < t.length := by simpa using hi
              simp only [swapIdx, List.getD_cons_succ, List.getD_cons_zero,
                List.set_cons_zero, List.set_cons_succ]
              exact swap_head_perm t m a hm
          | succ k =>
              have hm : m < t.length := by simpa using hi
              have hk : k < t.length := by simpa using hj
              simp only [swapIdx, List.getD_cons_succ, List.set_cons_succ]
              exact List.Perm.cons a (ih m k hm hk)

lemma shuffleGo_perm (rng : ℕ → ℕ) : ∀ (i k : ℕ) (l : List String), i < l.length →
    (shuffleGo rng k l i).Perm l := by
  intro i
  induction i with
  | zero => intro k l _; exact List.Perm.refl l
  | succ m ih =>
      intro k l hl
      unfold shuffleGo
      have hj : rng k % (m + 2) < l.length := by
        have := Nat.mod_lt (rng k) (y := m + 2) (by omega)
        omega
      have hswap : (swapIdx l (m + 1) (rng k % (m + 2))).Perm l :=
        swapIdx_perm l (m + 1) (rng k % (m + 2)) hl hj
      have hlen : m < (swapIdx l (m + 1) (rng k % (m + 2))).length := by
        rw [hswap.length_eq]
        omega
      exact (ih (k + 1) _ hlen).trans hswap

lemma shuffleRun_perm (rng : ℕ → ℕ) (l : List String) : (shuffleRun rng l).Perm l := by
  unfold shuffleRun
  cases l with
  | nil => exact List.Perm.refl _
  | cons a t =>
      apply shuffleGo_perm
      simp

lemma fillGo_length (rng : ℕ → ℕ) (maxLinks : ℕ) :
    ∀ (fuel k : ℕ) (selected remaining : List String),
      remaining.length ≤ fuel → selected.length ≤ maxLinks →
      (fillGo rng fuel k maxLinks selected remaining).length =
        min maxLinks (selected.length + remaining.length) := by
  intro fuel
  induction fuel with
  | zero =>
      intro k sel rem hf hs
      have : rem = [] := List.eq_nil_of_length_eq_zero (by omega)
      subst this
      simp [fillGo]
      omega
  | succ fuel ih =>
      intro k sel rem hf hs
      unfold fillGo
      by_cases hcond : sel.length < maxLinks ∧ rem ≠ []
      · rw [if_pos hcond]
        have hrem : 0 < rem.length := List.length_pos.mpr hcond.2
        have hidx : rng k % rem.length < rem.length := Nat.mod_lt _ hrem
        rw [ih (k + 1) (sel ++ [rem.getD (rng k % rem.length) ""])
          (rem.eraseIdx (rng k % rem.length))
          (by rw [List.length_eraseIdx_of_lt hidx]; omega)
          (by simp; omega)]
        rw [List.length_append, List.length_eraseIdx_of_lt hidx]
        simp
        omega
      · rw [if_neg hcond]
        rcases Decidable.not_and_iff_or_not.mp hcond with h | h
        · have : sel.length = maxLinks := by omega
          omega
        · have : rem = [] := by
            by_cases hr : rem = []
            · exact hr
            · exact absurd hr h
          subst this
          simp
          omega

lemma fillGo_perm (rng : ℕ → ℕ) (maxLinks : ℕ) :
    ∀ (fuel k : ℕ) (selected remaining : List String),
      remaining.length ≤ fuel →
      ∃ l2, ((fillGo rng fuel k maxLinks selected remaining) ++ l2).Perm
        (selected ++ remaining) := by
  intro fuel
  induction fuel with
  | zero =>
      intro k sel rem hf
      have : rem = [] := List.eq_nil_of_length_eq_zero (by omega)
      subst this
      exact ⟨[], by simp [fillGo]⟩
  | succ fuel ih =>
      intro k sel rem hf
      unfold fillGo
      by_cases hcond : sel.length < maxLinks ∧ rem ≠ []
      · rw [if_pos hcond]
        have hrem : 0 < rem.length := List.length_pos.mpr hcond.2
        have hidx : rng k % rem.length < rem.length := Nat.mod_lt _ hrem
        obtain ⟨l2, hl2⟩ := ih (k + 1) (sel ++ [rem.getD (rng k % rem.length) ""])
          (rem.eraseIdx (rng k % rem.length))
          (by rw [List.length_eraseIdx_of_lt hidx]; omega)
        refine ⟨l2, hl2.trans ?_⟩
        rw [List.append_assoc]
        apply List.Perm.append_left
        simpa using getD_cons_eraseIdx_perm rem (rng k % rem.length) hidx
      · rw [if_neg hcond]
        exact ⟨rem, List.Perm.refl _⟩

lemma nodup_append_singleton {l : List String} {a : String}
    (h1 : l.Nodup) (h2 : a ∉ l) : (l ++ [a]).Nodup :=
  (List.perm_append_singleton a l).nodup_iff.mpr (List.nodup_cons.mpr ⟨h2, h1⟩)

lemma pass1_inv (maxLinks : ℕ) (L : List String) :
    ∀ (m : List (String × List String)) (sel : List String),
      (m.map Prod.fst).Nodup →
      (∀ p ∈ m, ∀ x ∈ p.2, repoOfLink x = p.1) →
      (∀ p ∈ m, ∀ x ∈ p.2, x ∈ L) →
      sel.Nodup →
      (∀ x ∈ sel, x ∈ L) →
      (∀ y ∈ sel, ∀ p ∈ m, repoOfLink y ≠ p.1) →
      sel.length ≤ maxLinks →
      ((pass1 maxLinks (m.map (fun g => g.2)) sel).Nodup ∧
       (∀ x ∈ pass1 maxLinks (m.map (fun g => g.2)) sel, x ∈ L) ∧
       (pass1 maxLinks (m.map (fun g => g.2)) sel).length ≤ maxLinks) := by
  intro m
  induction m with
  | nil =>
      intro sel _ _ _ h4 h5 _ h7
      exact ⟨h4, h5, h7⟩
  | cons kg rest ih =>
      intro sel h1 h2 h3 h4 h5 h6 h7
      obtain ⟨k, g⟩ := kg
      rw [List.map_cons]
      have h1r : (rest.map Prod.fst).Nodup := (List.nodup_cons.mp (by simpa using h1)).2
      have hknot : k ∉ rest.map Prod.fst := (List.nodup_cons.mp (by simpa using h1)).1
      have h2r : ∀ p ∈ rest, ∀ x ∈ p.2, repoOfLink x = p.1 :=
        fun p hp => h2 p (List.mem_cons_of_mem _ hp)
      have h3r : ∀ p ∈ rest, ∀ x ∈ p.2, x ∈ L :=
        fun p hp => h3 p (List.mem_cons_of_mem _ hp)
      unfold pass1
      cases hf : g.find? (fun l => containsSub l.data pullPat) with
      | none =>
          exact ih sel h1r h2r h3r h4 h5
            (fun y hy p hp => h6 y hy p (List.mem_cons_of_mem _ hp)) h7
      | some l =>
          dsimp only
          have hlg : l ∈ g := List.mem_of_find?_eq_some hf
          have hlk : repoOfLink l = k := h2 (k, g) (List.mem_cons_self _ _) l hlg
          have hlL : l ∈ L := h3 (k, g) (List.mem_cons_self _ _) l hlg
          by_cases hroom : sel.length < maxLinks
          · rw [if_pos hroom]
            have hlnot : l ∉ sel := fun hmem =>
              h6 l hmem (k, g) (List.mem_cons_self _ _) hlk
            refine ih (sel ++ [l]) h1r h2r h3r (nodup_append_singleton h4 hlnot) ?_ ?_ ?_
            · intro x hx
              rcases List.mem_append.mp hx with hx | hx
              · exact h5 x hx
              · rw [List.mem_singleton.mp hx]; exact hlL
            · intro y hy p hp
              rcases List.mem_append.mp hy with hy | hy
              · exact h6 y hy p (List.mem_cons_of_mem _ hp)
              · rw [List.mem_singleton.mp hy, hlk]
                intro hkp
                exact hknot (hkp ▸ List.mem_map_of_mem Prod.fst hp)
            · simp only [List.length_append, List.length_singleton]
              omega
          · rw [if_neg hroom]
            exact ih sel h1r h2r h3r h4 h5
              (fun y hy p hp => h6 y hy p (List.mem_cons_of_mem _ hp)) h7

lemma pass2_inv (maxLinks : ℕ) (L : List String) :
    ∀ (gs : List (List String)) (sel : List String),
      (∀ g ∈ gs, ∀ x ∈ g, x ∈ L) →
      sel.Nodup →
      (∀ x ∈ sel, x ∈ L) →
      sel.length ≤ maxLinks →
      ((pass2 maxLinks gs sel).Nodup ∧
       (∀ x ∈ pass2 maxLinks gs sel, x ∈ L) ∧
       (pass2 maxLinks gs sel).length ≤ maxLinks) := by
  intro gs
  induction gs with
  | nil => intro sel _ h2 h3 h4; exact ⟨h2, h3, h4⟩
  | cons g gs ih =>
      intro sel h1 h2 h3 h4
      have h1r : ∀ g2 ∈ gs, ∀ x ∈ g2, x ∈ L :=
        fun g2 hg2 => h1 g2 (List.mem_cons_of_mem _ hg2)
      unfold pass2
      cases hf : g.find? (fun l => containsSub l.data commitPat && !(decide (l ∈ sel))) with
      | none => exact ih sel h1r h2 h3 h4
      | some l =>
          dsimp only
          have hlg : l ∈ g := List.mem_of_find?_eq_some hf
          have hlL : l ∈ L := h1 g (List.mem_cons_self _ _) l hlg
          have hpred := List.find?_some hf
          have hlnot : l ∉ sel := by
            simp only [Bool.and_eq_true, Bool.not_eq_true', decide_eq_false_iff_not] at hpred
            exact hpred.2
          by_cases hroom : sel.length < maxLinks
          · rw [if_pos hroom]
            refine ih (sel ++ [l]) h1r (nodup_append_singleton h2 hlnot) ?_ ?_
            · intro x hx
              rcases List.mem_append.mp hx with hx | hx
              · exact h3 x hx
              · rw [List.mem_singleton.mp hx]; exact hlL
            · simp only [List.length_append, List.length_singleton]
              omega
          · rw [if_neg hroom]
            exact ih sel h1r h2 h3 h4

lemma groupAdd_keys : ∀ (m : List (String × List String)) (k : String) (l : String),
    (groupAdd m k l).map Prod.fst =
      if k ∈ m.map Prod.fst then m.map Prod.fst else m.map Prod.fst ++ [k] := by
  intro m
  induction m with
  | nil => intro k l; simp [groupAdd]
  | cons kg rest ih =>
      intro k l
      obtain ⟨k0, ls⟩ := kg
      unfold groupAdd
      by_cases hk : k0 = k
      · rw [if_pos hk]
        simp [hk]
      · rw [if_neg hk]
        simp only [List.map_cons, ih]
        have hne : ¬(k = k0) := fun h => hk h.symm
        by_cases hmem : k ∈ rest.map Prod.fst
        · rw [if_pos hmem, if_pos (by simp [hmem])]
        · rw [if_neg hmem, if_neg (by simp [hne, hmem])]
          simp

lemma groupAdd_mem : ∀ (m : List (String × List String)) (k : String) (l : String),
    ∀ p ∈ groupAdd m k l, ∀ x ∈ p.2,
      (∃ q ∈ m, x ∈ q.2 ∧ q.1 = p.1) ∨ (x = l ∧ p.1 = k) := by
  intro m
  induction m with
  | nil =>
      intro k l p hp x hx
      simp only [groupAdd, List.mem_singleton] at hp
      subst hp
      simp only [List.mem_singleton] at hx
      exact Or.inr ⟨hx, rfl⟩
  | cons kg rest ih =>
      intro k l p hp x hx
      obtain ⟨k0, ls⟩ := kg
      unfold groupAdd at hp
      by_cases hk : k0 = k
      · rw [if_pos hk] at hp
        rcases List.mem_cons.mp hp with rfl | hp
        · rcases List.mem_append.mp hx with hx | hx
          · exact Or.inl ⟨(k0, ls), List.mem_cons_self _ _, hx, rfl⟩
          · exact Or.inr ⟨List.mem_singleton.mp hx, hk.symm ▸ rfl⟩
        · exact Or.inl ⟨p, List.mem_cons_of_mem _ hp, hx, rfl⟩
      · rw [if_neg hk] at hp
        rcases List.mem_cons.mp hp with rfl | hp
        · exact Or.inl ⟨(k0, ls), List.mem_cons_self _ _, hx, rfl⟩
        · rcases ih k l p hp x hx with ⟨q, hq, hxq, hq1⟩ | hr
          · exact Or.inl ⟨q, List.mem_cons_of_mem _ hq, hxq, hq1⟩
          · exact Or.inr hr

lemma groupByRepo_inv (L : List String) :
    ∀ (ls : List String) (m : List (String × List String)),
      (∀ x ∈ ls, x ∈ L) →
      (m.map Prod.fst).Nodup →
      (∀ p ∈ m, ∀ x ∈ p.2, repoOfLink x = p.1) →
      (∀ p ∈ m, ∀ x ∈ p.2, x ∈ L) →
      (((ls.foldl (fun m l => groupAdd m (repoOfLink l) l) m).map Prod.fst).Nodup ∧
       (∀ p ∈ ls.foldl (fun m l => groupAdd m (repoOfLink l) l) m,
          ∀ x ∈ p.2, repoOfLink x = p.1) ∧
       (∀ p ∈ ls.foldl (fun m l => groupAdd m (repoOfLink l) l) m, ∀ x ∈ p.2, x ∈ L)) := by
  intro ls
  induction ls with
  | nil => intro m _ h2 h3 h4; exact ⟨h2, h3, h4⟩
  | cons l ls ih =>
      intro m h1 h2 h3 h4
      rw [List.foldl_cons]
      have hlL : l ∈ L := h1 l (List.mem_cons_self _ _)
      apply ih
      · exact fun x hx => h1 x (List.mem_cons_of_mem _ hx)
      · rw [groupAdd_keys]
        by_cases hmem : repoOfLink l ∈ m.map Prod.fst
        · rw [if_pos hmem]; exact h2
        · rw [if_neg hmem]; exact nodup_append_singleton h2 hmem
      · intro p hp x hx
        rcases groupAdd_mem m (repoOfLink l) l p hp x hx with ⟨q, hq, hxq, hq1⟩ | ⟨rfl, hpk⟩
        · rw [← hq1]; exact h3 q hq x hxq
        · rw [hpk]
      · intro p hp x hx
        rcases groupAdd_mem m (repoOfLink l) l p hp x hx with ⟨q, hq, hxq, _⟩ | ⟨rfl, _⟩
        · exact h4 q hq x hxq
        · exact hlL

lemma groupByRepo_facts (links : List String) :
    ((groupByRepo links).map Prod.fst).Nodup ∧
    (∀ p ∈ groupByRepo links, ∀ x ∈ p.2, repoOfLink x = p.1) ∧
    (∀ p ∈ groupByRepo links, ∀ x ∈ p.2, x ∈ links) := by
  unfold groupByRepo
  exact groupByRepo_inv links links [] (fun x hx => hx) (by simp) (by simp) (by simp)

lemma length_filter_split (p : String → Bool) : ∀ (l : List String),
    l.length = (l.filter p).length + (l.filter (fun a => !(p a))).length := by
  intro l
  induction l with
  | nil => rfl
  | cons a t ih =>
      by_cases hp : p a <;>
        simp [List.filter_cons, hp, ih] <;> omega

/-- C3 (amended): for a duplicate-free evidence pool the repository-balanced
fresh sampler returns the whole pool in original order when the pool fits the
requested size, and otherwise returns exactly `maxLinks` pairwise-distinct
URLs drawn from the pool.  (Duplicate-freedom is forced: a pool with repeated
URLs can produce fewer than `maxLinks` entries, see the counterexample.) -/
theorem freshSample_spec (links : List String) (maxLinks : ℕ) (rngFill rngShuf : ℕ → ℕ)
    (hnd : links.Nodup) :
    (links.length ≤ maxLinks → freshSample links maxLinks rngFill rngShuf = links) ∧
    (maxLinks < links.length →
      ((freshSample links maxLinks rngFill rngShuf).length = maxLinks ∧
       (freshSample links maxLinks rngFill rngShuf).Nodup ∧
       ∀ x ∈ freshSample links maxLinks rngFill rngShuf, x ∈ links)) := by
  constructor
  · intro h
    unfold freshSample
    rw [if_pos h]
  · intro h
    unfold freshSample
    rw [if_neg (by omega)]
    dsimp only
    obtain ⟨hG1, hG2, hG3⟩ := groupByRepo_facts links
    obtain ⟨s1nd, s1mem, s1len⟩ :=
      pass1_inv maxLinks links (groupByRepo links) [] hG1 hG2 hG3 List.nodup_nil
        (by simp) (by simp) (by simp)
    have hgmem : ∀ g ∈ (groupByRepo links).map (fun g => g.2), ∀ x ∈ g, x ∈ links := by
      intro g hg x hx
      obtain ⟨p, hp, rfl⟩ := List.mem_map.mp hg
      exact hG3 p hp x hx
    obtain ⟨s2nd, s2mem, s2len⟩ :=
      pass2_inv maxLinks links ((groupByRepo links).map (fun g => g.2))
        (pass1 maxLinks ((groupByRepo links).map (fun g => g.2)) []) hgmem s1nd s1mem s1len
    set sel2 := pass2 maxLinks ((groupByRepo links).map (fun g => g.2))
      (pass1 maxLinks ((groupByRepo links).map (fun g => g.2)) []) with hsel2
    set rem := links.filter (fun l => !(decide (l ∈ sel2))) with hremdef
    have hremnd : rem.Nodup := hnd.filter _
    have hdisj : List.Disjoint sel2 rem := by
      intro a ha har
      have h2 := (List.mem_filter.mp har).2
      simp only [Bool.not_eq_true', decide_eq_false_iff_not] at h2
      exact h2 ha
    have happnd : (sel2 ++ rem).Nodup := s2nd.append hremnd hdisj
    have hsubl : (links.filter (fun l => (decide (l ∈ sel2)))).length ≤ sel2.length := by
      have hndf : (links.filter (fun l => (decide (l ∈ sel2)))).Nodup := hnd.filter _
      have hsubset : (links.filter (fun l => (decide (l ∈ sel2)))) ⊆ sel2 := by
        intro a ha
        have h2 := (List.mem_filter.mp ha).2
        simpa using h2
      exact (List.subperm_of_subset hndf hsubset).length_le
    have hsplit := length_filter_split (fun l => (decide (l ∈ sel2))) links
    have hcount : maxLinks ≤ sel2.length + rem.length := by
      rw [hremdef]
      omega
    set filled := fillGo rngFill rem.length 0 maxLinks sel2 rem with hfilled
    have hfl : filled.length = maxLinks := by
      rw [hfilled, fillGo_length rngFill maxLinks rem.length 0 sel2 rem (le_refl _) s2len]
      omega
    obtain ⟨l2, hperm⟩ := fillGo_perm rngFill maxLinks rem.length 0 sel2 rem (le_refl _)
    have hfnd : filled.Nodup := by
      have hall : (filled ++ l2).Nodup := hperm.nodup_iff.mpr happnd
      exact (List.nodup_append.mp hall).1
    have hfmem : ∀ x ∈ filled, x ∈ links := by
      intro x hx
      have hx2 : x ∈ sel2 ++ rem := hperm.subset (List.mem_append_left l2 hx)
      rcases List.mem_append.mp hx2 with hx2 | hx2
      · exact s2mem x hx2
      · exact (List.mem_filter.mp hx2).1
    have hsp : (shuffleRun rngShuf filled).Perm filled := shuffleRun_perm rngShuf filled
    have hslen : (shuffleRun rngShuf filled).length = maxLinks := hsp.length_eq.trans hfl
    have htake : (shuffleRun rngShuf filled).take maxLinks = shuffleRun rngShuf filled :=
      List.take_of_length_le (le_of_eq hslen)
    rw [htake]
    exact ⟨hslen, hsp.nodup_iff.mpr hfnd, fun x hx => hfmem x (hsp.subset hx)⟩

/-- Witness for C3 (amended): a three-link pool with sample size 12 comes
back whole and in order; a five-link duplicate-free pool with sample size 2
yields exactly two distinct pool links. -/
theorem freshSample_spec_witness :
    freshSample linksC3 12 (fun _ => 0) (fun _ => 0) = linksC3 ∧
    ((freshSample linksC3b 2 (fun _ => 3) (fun _ => 1)).length = 2 ∧
     (freshSample linksC3b 2 (fun _ => 3) (fun _ => 1)).Nodup ∧
     ∀ x ∈ freshSample linksC3b 2 (fun _ => 3) (fun _ => 1), x ∈ linksC3b) :=
  ⟨(freshSample_spec linksC3 12 (fun _ => 0) (fun _ => 0) (by decide)).1 (by decide),
   (freshSample_spec linksC3b 2 (fun _ => 3) (fun _ => 1) (by decide)).2 (by decide)⟩

/-- Counterexample for C3: a pool holding the same pull-request link three
times (length 4, above the requested 3) yields only two links -- the priority
pass takes the link once and the fill loop runs out of distinct leftovers, so
the output size is not the requested sample size. -/
theorem freshSample_dup_pool_short :
    3 < poolDupC3.length ∧
    (freshSample poolDupC3 3 (fun _ => 0) (fun _ => 0)).length = 2 :=
  ⟨by decide, by decide⟩
